import Mathlib

/-!
Verification development for the TlRef repository (TL schema documentation
generator).  The Python sources `tl_doc_scraper.py` and `build_html.py` are
shallowly embedded below: strings are modelled as `String` / `List Char`
(ASCII semantics for character classes and case mapping), the regular
expressions used by the code are embedded as executable matching functions
that reproduce the backtracking behaviour of Python's `re` module on the
concrete patterns appearing in the source, and Python dictionaries are
modelled as insertion-ordered association lists.
-/

set_option maxRecDepth 100000

namespace TlRef

/-! ## Character classes (ASCII semantics of Python's regex classes) -/

/-- `[a-z]` -/
def isLowerCh (c : Char) : Bool := 97 ≤ c.toNat && c.toNat ≤ 122

/-- `[A-Z]` -/
def isUpperCh (c : Char) : Bool := 65 ≤ c.toNat && c.toNat ≤ 90

/-- `[0-9]` -/
def isDigitCh (c : Char) : Bool := 48 ≤ c.toNat && c.toNat ≤ 57

def isLetterCh (c : Char) : Bool := isLowerCh c || isUpperCh c

/-- `\w` = `[a-zA-Z0-9_]` -/
def isWordCh (c : Char) : Bool := isLetterCh c || isDigitCh c || c.toNat == 95

/-- `[a-zA-Z_]`, the first character of a NAME -/
def isNameStartCh (c : Char) : Bool := isLetterCh c || c.toNat == 95

/-- `[a-zA-Z0-9_.]`, the later characters of a dotted NAME -/
def isDotNameCh (c : Char) : Bool := isWordCh c || c.toNat == 46

/-- `[0-9a-fA-F]` -/
def isHexCh (c : Char) : Bool :=
  isDigitCh c || (97 ≤ c.toNat && c.toNat ≤ 102) || (65 ≤ c.toNat && c.toNat ≤ 70)

/-- Python `\s` = `[ \t\n\r\x0b\x0c]` (ASCII part) -/
def isWsCh (c : Char) : Bool :=
  c.toNat == 32 || c.toNat == 9 || c.toNat == 10 || c.toNat == 13 ||
  c.toNat == 11 || c.toNat == 12

/-! ## Generic list utilities -/

/-- Split a list at the end of the maximal prefix satisfying `p`
(the pair `(takeWhile p l, dropWhile p l)`). -/
def takeRun (p : Char → Bool) : List Char → List Char × List Char
  | [] => ([], [])
  | c :: cs =>
    if p c then
      let r := takeRun p cs
      (c :: r.1, r.2)
    else ([], c :: cs)

theorem takeRun_append_eq (p : Char → Bool) (l : List Char) :
    (takeRun p l).1 ++ (takeRun p l).2 = l := by
  induction l with
  | nil => rfl
  | cons c cs ih =>
    by_cases h : p c <;> simp [takeRun, h, ih]

theorem takeRun_all (p : Char → Bool) (l : List Char) (h : ∀ c ∈ l, p c) :
    takeRun p l = (l, []) := by
  induction l with
  | nil => rfl
  | cons c cs ih =>
    have hc : p c := h c (List.mem_cons_self c cs)
    simp only [takeRun, hc, if_true]
    rw [ih (fun d hd => h d (List.mem_cons_of_mem c hd))]

theorem takeRun_sat (p : Char → Bool) (l : List Char) :
    ∀ c ∈ (takeRun p l).1, p c := by
  induction l with
  | nil => intro c hc; simp [takeRun] at hc
  | cons c cs ih =>
    by_cases h : p c
    · simp only [takeRun, h, if_true]
      intro d hd
      rcases List.mem_cons.mp hd with rfl | hd
      · exact h
      · exact ih d hd
    · simp [takeRun, h]

/-- `takeRun` on a run of `p`-chars followed by something that is not a
`p`-char splits exactly at the boundary. -/
theorem takeRun_append (p : Char → Bool) (a b : List Char)
    (ha : ∀ c ∈ a, p c) (hb : ∀ c, b.head? = some c → p c = false) :
    takeRun p (a ++ b) = (a, b) := by
  induction a with
  | nil =>
    cases b with
    | nil => rfl
    | cons c cs =>
      have : p c = false := hb c rfl
      simp [takeRun, this]
  | cons c cs ih =>
    have hc : p c := ha c (List.mem_cons_self c cs)
    simp only [List.cons_append, takeRun, hc, if_true, List.append_eq]
    rw [ih (fun d hd => ha d (List.mem_cons_of_mem c hd))]

theorem takeRun_drop_subset (p : Char → Bool) (l : List Char) :
    ∀ c ∈ (takeRun p l).2, c ∈ l := by
  intro c hc
  have := takeRun_append_eq p l
  rw [← this]
  exact List.mem_append_right _ hc

theorem takeRun_take_subset (p : Char → Bool) (l : List Char) :
    ∀ c ∈ (takeRun p l).1, c ∈ l := by
  intro c hc
  have := takeRun_append_eq p l
  rw [← this]
  exact List.mem_append_left _ hc

theorem takeRun_drop_length (p : Char → Bool) (l : List Char) :
    (takeRun p l).2.length ≤ l.length := by
  conv_rhs => rw [← takeRun_append_eq p l]
  simp

/-- Prefix test on character lists. -/
def isPrefixL : List Char → List Char → Bool
  | [], _ => true
  | _ :: _, [] => false
  | p :: ps, c :: cs => p == c && isPrefixL ps cs

theorem isPrefixL_iff (p l : List Char) : isPrefixL p l = true ↔ ∃ t, l = p ++ t := by
  induction p generalizing l with
  | nil => simp [isPrefixL]
  | cons x xs ih =>
    cases l with
    | nil =>
      simp only [isPrefixL, List.cons_append]
      constructor
      · intro h; cases h
      · rintro ⟨t, h⟩; cases h
    | cons c cs =>
      simp only [isPrefixL, Bool.and_eq_true, beq_iff_eq, ih, List.cons_append]
      constructor
      · rintro ⟨rfl, t, rfl⟩; exact ⟨t, rfl⟩
      · rintro ⟨t, h⟩
        injection h with h1 h2
        exact ⟨h1.symm, t, h2⟩

/-- Substring test (Python's `in` on strings). -/
def subL (pat : List Char) : List Char → Bool
  | [] => isPrefixL pat []
  | c :: cs => isPrefixL pat (c :: cs) || subL pat cs

/-- Python `str.strip()`: remove leading and trailing whitespace. -/
def trimL (l : List Char) : List Char :=
  ((l.dropWhile isWsCh).reverse.dropWhile isWsCh).reverse

/-- Python `str.split('_')`. -/
def splitUnd : List Char → List (List Char)
  | [] => [[]]
  | c :: cs =>
    if c.toNat == 95 then [] :: splitUnd cs
    else
      match splitUnd cs with
      | [] => [[c]]
      | s :: ss => (c :: s) :: ss

/-- Python `str.replace('.', '_')`. -/
def replaceDots (l : List Char) : List Char :=
  l.map (fun c => if c.toNat == 46 then '_' else c)

/-! ## ASCII case mapping (Python `str.upper` / `str.lower` on ASCII chars) -/

theorem char_toNat_ofNat (n : Nat) (h : n < 55296) : (Char.ofNat n).toNat = n := by
  unfold Char.ofNat
  rw [dif_pos (Or.inl h)]
  unfold Char.ofNatAux Char.toNat
  show (UInt32.ofNat' n _).toNat = n
  simp [UInt32.ofNat', UInt32.toNat, BitVec.toNat_ofNatLt]

def upCh (c : Char) : Char :=
  if isLowerCh c then Char.ofNat (c.toNat - 32) else c

def downCh (c : Char) : Char :=
  if isUpperCh c then Char.ofNat (c.toNat + 32) else c

theorem isLowerCh_toNat {c : Char} (h : isLowerCh c = true) :
    97 ≤ c.toNat ∧ c.toNat ≤ 122 := by
  simp only [isLowerCh, Bool.and_eq_true, decide_eq_true_eq] at h
  exact h

theorem isUpperCh_toNat {c : Char} (h : isUpperCh c = true) :
    65 ≤ c.toNat ∧ c.toNat ≤ 90 := by
  simp only [isUpperCh, Bool.and_eq_true, decide_eq_true_eq] at h
  exact h

theorem upCh_toNat_of_lower {c : Char} (h : isLowerCh c = true) :
    (upCh c).toNat = c.toNat - 32 := by
  obtain ⟨h1, h2⟩ := isLowerCh_toNat h
  unfold upCh
  rw [if_pos h]
  exact char_toNat_ofNat _ (by omega)

theorem downCh_toNat_of_upper {c : Char} (h : isUpperCh c = true) :
    (downCh c).toNat = c.toNat + 32 := by
  obtain ⟨h1, h2⟩ := isUpperCh_toNat h
  unfold downCh
  rw [if_pos h]
  exact char_toNat_ofNat _ (by omega)

theorem upCh_upper_of_lower {c : Char} (h : isLowerCh c = true) :
    isUpperCh (upCh c) = true := by
  obtain ⟨h1, h2⟩ := isLowerCh_toNat h
  have := upCh_toNat_of_lower h
  simp only [isUpperCh, Bool.and_eq_true, decide_eq_true_eq, this]
  omega

theorem upCh_of_not_lower {c : Char} (h : isLowerCh c = false) : upCh c = c := by
  unfold upCh
  rw [h]
  rfl

theorem downCh_of_not_upper {c : Char} (h : isUpperCh c = false) : downCh c = c := by
  unfold downCh
  rw [h]
  rfl

theorem upCh_toNat_eq_or (c : Char) :
    (upCh c).toNat = c.toNat ∨ (65 ≤ (upCh c).toNat ∧ (upCh c).toNat ≤ 90) := by
  by_cases h : isLowerCh c = true
  · obtain ⟨h1, h2⟩ := isLowerCh_toNat h
    rw [upCh_toNat_of_lower h]
    right
    omega
  · rw [upCh_of_not_lower (by simpa using h)]
    exact Or.inl rfl

theorem downCh_toNat_eq_or (c : Char) :
    (downCh c).toNat = c.toNat ∨ (97 ≤ (downCh c).toNat ∧ (downCh c).toNat ≤ 122) := by
  by_cases h : isUpperCh c = true
  · obtain ⟨h1, h2⟩ := isUpperCh_toNat h
    rw [downCh_toNat_of_upper h]
    right
    omega
  · rw [downCh_of_not_upper (by simpa using h)]
    exact Or.inl rfl

/-- Python `str.capitalize()` (ASCII): first char uppercased, rest lowercased. -/
def pyCapitalize : List Char → List Char
  | [] => []
  | c :: cs => upCh c :: cs.map downCh

/-! ## The word-splitting regex of `to_go_name` (build_html.py:143)

`re.findall(r'[A-Z]?[a-z]+|[A-Z]+(?=[A-Z][a-z]|\d|\W|$)|\d+', part)`,
embedded as an executable scanner with Python's leftmost / alternation /
greedy-with-backtracking semantics specialised to this pattern. -/

/-- The lookahead `(?=[A-Z][a-z]|\d|\W|$)`. -/
def lookAheadOk : List Char → Bool
  | [] => true
  | [a] => isDigitCh a || !isWordCh a
  | a :: b :: _ => (isUpperCh a && isLowerCh b) || isDigitCh a || !isWordCh a

/-- First alternative `[A-Z]?[a-z]+` (greedy, with the implicit backtracking
over the optional uppercase letter). -/
def matchAlt1 : List Char → Option (List Char × List Char)
  | [] => none
  | c :: cs =>
    if isUpperCh c then
      match cs with
      | d :: _ =>
        if isLowerCh d then
          let r := takeRun isLowerCh cs
          some (c :: r.1, r.2)
        else none
      | [] => none
    else if isLowerCh c then
      let r := takeRun isLowerCh (c :: cs)
      some (r.1, r.2)
    else none

/-- Is the first character a lowercase letter? -/
def headLower : List Char → Bool
  | d :: _ => isLowerCh d
  | [] => false

/-- Second alternative `[A-Z]+(?=[A-Z][a-z]|\d|\W|$)`: a greedy run of
uppercase letters, backing off by at most one character so that the
lookahead can see an uppercase-then-lowercase pair. -/
def matchAlt2 (l : List Char) : Option (List Char × List Char) :=
  let run := (takeRun isUpperCh l).1
  let rest := (takeRun isUpperCh l).2
  if run.isEmpty then none
  else if lookAheadOk rest then some (run, rest)
  else if headLower rest = true ∧ 2 ≤ run.length then
    some (run.take (run.length - 1), run.drop (run.length - 1) ++ rest)
  else none

/-- Third alternative `\d+`. -/
def matchAlt3 (l : List Char) : Option (List Char × List Char) :=
  let r := takeRun isDigitCh l
  if r.1.isEmpty then none else some (r.1, r.2)

/-- One attempt of the whole pattern at the current position
(alternatives tried in order). -/
def wordMatchAt (l : List Char) : Option (List Char × List Char) :=
  match matchAlt1 l with
  | some x => some x
  | none =>
    match matchAlt2 l with
    | some x => some x
    | none => matchAlt3 l

theorem takeRun_drop_lt (p : Char → Bool) (l : List Char)
    (h : (takeRun p l).1 ≠ []) : (takeRun p l).2.length < l.length := by
  have he := congrArg List.length (takeRun_append_eq p l)
  rw [List.length_append] at he
  have hpos : 0 < (takeRun p l).1.length := List.length_pos.mpr h
  omega

theorem wordMatchAt_rest_lt {l m rest : List Char}
    (h : wordMatchAt l = some (m, rest)) : rest.length < l.length := by
  unfold wordMatchAt at h
  cases h1 : matchAlt1 l with
  | some x =>
    rw [h1] at h
    injection h with h
    subst h
    -- analyse matchAlt1
    unfold matchAlt1 at h1
    cases l with
    | nil => cases h1
    | cons c cs =>
      by_cases hu : isUpperCh c = true
      · simp only [hu, if_true] at h1
        cases cs with
        | nil => cases h1
        | cons d ds =>
          by_cases hd : isLowerCh d = true
          · simp only [hd, if_true] at h1
            injection h1 with h1
            have : rest = (takeRun isLowerCh (d :: ds)).2 := by
              have := congrArg Prod.snd h1
              simpa using this.symm
            rw [this]
            calc (takeRun isLowerCh (d :: ds)).2.length
                ≤ (d :: ds).length := takeRun_drop_length _ _
              _ < (c :: d :: ds).length := by simp
          · simp [hd] at h1
      · simp only [Bool.not_eq_true] at hu
        simp only [hu, if_false] at h1
        by_cases hl : isLowerCh c = true
        · simp only [hl, if_true] at h1
          injection h1 with h1
          have hne : (takeRun isLowerCh (c :: cs)).1 ≠ [] := by
            simp [takeRun, hl]
          have : rest = (takeRun isLowerCh (c :: cs)).2 := by
            have := congrArg Prod.snd h1
            simpa using this.symm
          rw [this]
          exact takeRun_drop_lt _ _ hne
        · simp [hl] at h1
  | none =>
    rw [h1] at h
    cases h2 : matchAlt2 l with
    | some x =>
      rw [h2] at h
      injection h with h
      subst h
      unfold matchAlt2 at h2
      by_cases hre : (takeRun isUpperCh l).1.isEmpty
      · simp [hre] at h2
      · simp only [hre, if_false] at h2
        have hne : (takeRun isUpperCh l).1 ≠ [] := by
          simpa [List.isEmpty_iff] using hre
        by_cases hla : lookAheadOk (takeRun isUpperCh l).2 = true
        · simp only [hla, if_true] at h2
          injection h2 with h2
          have : rest = (takeRun isUpperCh l).2 := by
            have := congrArg Prod.snd h2
            simpa using this.symm
          rw [this]
          exact takeRun_drop_lt _ _ hne
        · simp only [hla, if_false] at h2
          by_cases hc : headLower (takeRun isUpperCh l).2 = true ∧
              2 ≤ (takeRun isUpperCh l).1.length
          · rw [if_pos hc] at h2
            injection h2 with h2
            have hrest : rest =
                (takeRun isUpperCh l).1.drop ((takeRun isUpperCh l).1.length - 1)
                  ++ (takeRun isUpperCh l).2 := by
              have := congrArg Prod.snd h2
              simpa using this.symm
            have hlen := congrArg List.length (takeRun_append_eq isUpperCh l)
            rw [List.length_append] at hlen
            have h2le : 2 ≤ (takeRun isUpperCh l).1.length := hc.2
            rw [hrest]
            simp only [List.length_append, List.length_drop]
            omega
          · rw [if_neg hc] at h2
            cases h2
    | none =>
      rw [h2] at h
      unfold matchAlt3 at h
      by_cases hre : (takeRun isDigitCh l).1.isEmpty
      · simp [hre] at h
      · simp only [hre, if_false] at h
        injection h with h
        have hne : (takeRun isDigitCh l).1 ≠ [] := by
          simpa [List.isEmpty_iff] using hre
        have : rest = (takeRun isDigitCh l).2 := by
          have := congrArg Prod.snd h
          simpa using this.symm
        rw [this]
        exact takeRun_drop_lt _ _ hne

/-- Fuel-driven scanner for the word pattern (structural recursion so that
the kernel can evaluate it; the fuel is an upper bound on the remaining
input length). -/
def findWordsF : Nat → List Char → List (List Char)
  | 0, _ => []
  | _ + 1, [] => []
  | fuel + 1, c :: cs =>
    match wordMatchAt (c :: cs) with
    | some (m, rest) => m :: findWordsF fuel rest
    | none => findWordsF fuel cs

theorem findWordsF_congr : ∀ f1 f2 (l : List Char), l.length ≤ f1 → l.length ≤ f2 →
    findWordsF f1 l = findWordsF f2 l := by
  intro f1
  induction f1 with
  | zero =>
    intro f2 l h1 _
    have : l = [] := List.length_eq_zero.mp (Nat.le_zero.mp h1)
    subst this
    cases f2 <;> rfl
  | succ f ih =>
    intro f2 l h1 h2
    cases l with
    | nil => cases f2 <;> rfl
    | cons c cs =>
      cases f2 with
      | zero => simp at h2
      | succ g =>
        simp only [findWordsF]
        cases hm : wordMatchAt (c :: cs) with
        | some x =>
          obtain ⟨m, rest⟩ := x
          have hlt := wordMatchAt_rest_lt hm
          simp only [List.length_cons] at h1 h2 hlt
          show m :: findWordsF f rest = m :: findWordsF g rest
          rw [ih g rest (by omega) (by omega)]
        | none =>
          simp only [List.length_cons] at h1 h2
          show findWordsF f cs = findWordsF g cs
          exact ih g cs (by omega) (by omega)

/-- `re.findall` of the word pattern: scan left to right, skipping
positions where no alternative matches. -/
def findWords (l : List Char) : List (List Char) :=
  findWordsF l.length l

theorem findWords_nil : findWords [] = [] := rfl

theorem findWords_cons (c : Char) (cs : List Char) :
    findWords (c :: cs) =
      match wordMatchAt (c :: cs) with
      | some (m, rest) => m :: findWords rest
      | none => findWords cs := by
  show findWordsF (cs.length + 1) (c :: cs) = _
  simp only [findWordsF]
  cases hm : wordMatchAt (c :: cs) with
  | some x =>
    obtain ⟨m, rest⟩ := x
    have hlt := wordMatchAt_rest_lt hm
    simp only [List.length_cons] at hlt
    show m :: findWordsF cs.length rest = m :: findWordsF rest.length rest
    rw [findWordsF_congr cs.length rest.length rest (by omega) (by omega)]
  | none => rfl

/-- One segment of `to_go_name`: findall words and capitalize them, or
capitalize the segment verbatim when no word is found. -/
def goNamePart (part : List Char) : List Char :=
  let ws := findWords part
  if ws.isEmpty then pyCapitalize part
  else (ws.map pyCapitalize).flatten

/-- `to_go_name` (build_html.py:130-148) on character lists. -/
def toGoNameL (l : List Char) : List Char :=
  ((splitUnd (replaceDots l)).map goNamePart).flatten

/-- `to_go_name` (build_html.py:130-148): convert a TL name to a Go name. -/
def toGoName (s : String) : String :=
  ⟨toGoNameL s.data⟩

example : toGoName "messages.sendMessage" = "MessagesSendMessage" := by decide
example : toGoName "inputMediaEmpty" = "InputMediaEmpty" := by decide
example : toGoName "ttl_seconds" = "TtlSeconds" := by decide
example : toGoName "HTMLParser" = "HtmlParser" := by decide
example : toGoName "a_b" = "AB" := by decide
example : toGoName "AB" = "Ab" := by decide
example : toGoName "Vector<int>" = "VectorInt" := by decide

/-! ## The curated tables of build_html.py (lines 152-181 and 260-278) -/

/-- Association-list lookup (Python `dict[k]` / `k in dict`). -/
def alook (k : String) : List (String × String) → Option String
  | [] => none
  | (k', v) :: rest => if k = k' then some v else alook k rest

/-- `INTERFACE_EXAMPLES` (build_html.py:152-181). -/
def INTERFACE_EXAMPLES : List (String × String) := [
  ("InputMedia", "InputMediaPhoto"),
  ("InputPeer", "InputPeerUser"),
  ("InputUser", "InputUserSelf"),
  ("InputChannel", "InputChannel"),
  ("InputDocument", "InputDocument"),
  ("InputPhoto", "InputPhoto"),
  ("InputFile", "InputFile"),
  ("InputGeoPoint", "InputGeoPoint"),
  ("InputChatPhoto", "InputChatUploadedPhoto"),
  ("InputNotifyPeer", "InputNotifyPeer"),
  ("InputPrivacyKey", "InputPrivacyKeyStatusTimestamp"),
  ("InputPrivacyRule", "InputPrivacyValueAllowAll"),
  ("ReplyMarkup", "ReplyKeyboardMarkup"),
  ("InputBotInlineMessage", "InputBotInlineMessageText"),
  ("InputBotInlineResult", "InputBotInlineResult"),
  ("InputStickeredMedia", "InputStickeredMediaPhoto"),
  ("InputWebFileLocation", "InputWebFileLocation"),
  ("InputSecureFile", "InputSecureFileUploaded"),
  ("InputEncryptedFile", "InputEncryptedFileUploaded"),
  ("MessageEntity", "MessageEntityBold"),
  ("KeyboardButton", "KeyboardButton"),
  ("Update", "UpdateNewMessage"),
  ("Chat", "Chat"),
  ("User", "User"),
  ("Message", "Message"),
  ("InputReplyTo", "InputReplyToMessage"),
  ("InputQuickReplyShortcut", "InputQuickReplyShortcut"),
  ("SuggestedPost", "SuggestedPost")]

/-- `STRUCT_EXPANSIONS` (build_html.py:260-278). -/
def STRUCT_EXPANSIONS : List (String × String) := [
  ("InputPeerUser", "UserID: int64(123456789)"),
  ("InputPeerChat", "ChatID: int64(123456789)"),
  ("InputPeerChannel", "ChannelID: int64(123456789), AccessHash: int64(0)"),
  ("InputUserSelf", ""),
  ("InputUser", "UserID: int64(123456789), AccessHash: int64(0)"),
  ("InputChannel", "ChannelID: int64(123456789), AccessHash: int64(0)"),
  ("InputPhoto", "ID: int64(0), AccessHash: int64(0), FileReference: []byte\x7b\x7d"),
  ("InputDocument", "ID: int64(0), AccessHash: int64(0), FileReference: []byte\x7b\x7d"),
  ("InputMediaPhoto",
    "ID: &tg.InputPhoto\x7bID: int64(0), AccessHash: int64(0), FileReference: []byte\x7b\x7d\x7d"),
  ("InputMediaDocument",
    "ID: &tg.InputDocument\x7bID: int64(0), AccessHash: int64(0), FileReference: []byte\x7b\x7d\x7d"),
  ("InputMediaUploadedPhoto",
    "File: &tg.InputFile\x7bID: int64(0), Parts: 1, Name: \"photo.jpg\"\x7d"),
  ("InputMediaUploadedDocument",
    "File: &tg.InputFile\x7bID: int64(0), Parts: 1, Name: \"file.pdf\"\x7d, MimeType: \"application/pdf\", Attributes: []tg.DocumentAttribute\x7b\x7d"),
  ("InputFile", "ID: int64(0), Parts: 1, Name: \"file.dat\""),
  ("InputGeoPoint", "Lat: 0.0, Long: 0.0"),
  ("InputReplyToMessage", "ReplyToMsgID: 123"),
  ("MessageEntityBold", "Offset: 0, Length: 4"),
  ("ReplyKeyboardMarkup", "Rows: []tg.KeyboardButtonRow\x7b\x7d")]

/-- `get_expanded_struct` (build_html.py:281-289). -/
def getExpandedStruct (typeName : String) : Option String :=
  let goName := toGoName typeName
  match alook typeName STRUCT_EXPANSIONS with
  | some fs =>
    if fs ≠ "" then some ("&tg." ++ goName ++ "\x7b" ++ fs ++ "\x7d")
    else some ("&tg." ++ goName ++ "\x7b\x7d")
  | none => none

/-- Python truthiness of an optional string (`if expanded:`). -/
def optTruthy : Option String → Option String
  | some s => if s = "" then none else some s
  | none => none

/-! ## `get_type_example` (build_html.py:184-256) -/

/-- `re.sub(r'^flags\.\d+\?', '', t)`: strip one optional-marker prefix. -/
def stripFlags (l : List Char) : List Char :=
  if isPrefixL "flags.".data l then
    let rest := l.drop 6
    if (takeRun isDigitCh rest).1.isEmpty then l
    else
      match (takeRun isDigitCh rest).2 with
      | c :: r => if c.toNat == 63 then r else l
      | [] => l
  else l

/-- `re.match(r'Vector<(.+)>', t)`: greedy capture up to the last `>` that
is reachable without crossing a newline (`.` does not match newlines). -/
def vecInner (l : List Char) : Option (List Char) :=
  if isPrefixL "Vector<".data l then
    let t := l.drop 7
    let pre := t.takeWhile (fun c => !(c.toNat == 10))
    match pre.reverse.findIdx? (fun c => c == '>') with
    | some j => if 1 ≤ pre.length - 1 - j then some (pre.take (pre.length - 1 - j)) else none
    | none => none
  else none

/-- Is the first character an uppercase letter (`t and t[0].isupper()`)? -/
def headUpperCh : List Char → Bool
  | c :: _ => isUpperCh c
  | [] => false

/-- The primitive element types of the vector branch (build_html.py:216). -/
def vecPrims : List String := ["int", "long", "string", "bytes", "int32", "int64"]

/-- `get_type_example` (build_html.py:184-256).  The local `is_optional`
of the source is dead code (never read) and is not modelled. -/
def getTypeExample (fieldType : String) (includeComment expandStruct : Bool) : String :=
  let clean : List Char := stripFlags fieldType.data
  let cleanS : String := ⟨clean⟩
  if subL "string".data clean then "\"...\""
  else if cleanS = "int" ∨ cleanS = "int32" then "0"
  else if cleanS = "long" ∨ cleanS = "int64" then "int64(0)"
  else if cleanS = "double" then "0.0"
  else if cleanS = "bytes" then "[]byte\x7b\x7d"
  else if cleanS = "Bool" ∨ cleanS = "true" then "true"
  else
    match vecInner clean with
    | some inner =>
      let innerS : String := ⟨inner⟩
      let innerGo := toGoName innerS
      if innerS ∈ vecPrims then "[]" ++ innerS ++ "\x7b\x7d"
      else
        match alook innerS INTERFACE_EXAMPLES with
        | some impl =>
          let implGo := toGoName impl
          match (if expandStruct then optTruthy (getExpandedStruct impl) else none) with
          | some expanded => "[]tg." ++ innerGo ++ "\x7b" ++ expanded ++ "\x7d"
          | none => "[]tg." ++ innerGo ++ "\x7b&tg." ++ implGo ++ "\x7b\x7d\x7d"
        | none => "[]tg." ++ innerGo ++ "\x7b&tg." ++ innerGo ++ "\x7b\x7d\x7d"
    | none =>
      if headUpperCh clean then
        let goTypeName := toGoName cleanS
        match alook cleanS INTERFACE_EXAMPLES with
        | some impl =>
          let implGo := toGoName impl
          match (if expandStruct then optTruthy (getExpandedStruct impl) else none) with
          | some expanded => expanded
          | none =>
            if includeComment then
              "&tg." ++ implGo ++ "\x7b\x7d  // or other " ++ cleanS ++ " implementations"
            else "&tg." ++ implGo ++ "\x7b\x7d"
        | none =>
          match (if expandStruct then optTruthy (getExpandedStruct cleanS) else none) with
          | some expanded => expanded
          | none => "&tg." ++ goTypeName ++ "\x7b\x7d"
      else "nil"

example : getTypeExample "Vector<string>" false false = "\"...\"" := by decide
example : getTypeExample "Vector<int>" false false = "[]int\x7b\x7d" := by decide
example : getTypeExample "Vector<InputPeer>" false true =
    "[]tg.InputPeer\x7b&tg.InputPeerUser\x7bUserID: int64(123456789)\x7d\x7d" := by decide
example : getTypeExample "Vector<InputPeer>" false false =
    "[]tg.InputPeer\x7b&tg.InputPeerUser\x7b\x7d\x7d" := by decide
example : getTypeExample "flags.0?int" false true = "0" := by decide
example : getTypeExample "InputPeer" true false =
    "&tg.InputPeerUser\x7b\x7d  // or other InputPeer implementations" := by decide
example : getTypeExample "Zebra" false true = "&tg.Zebra\x7b\x7d" := by decide
example : getTypeExample "zzz" false false = "nil" := by decide
example : getTypeExample "" false false = "nil" := by decide
example : getTypeExample "Vector<" false true = "&tg.Vector\x7b\x7d" := by decide
example : getTypeExample "InputUserSelf" false true = "&tg.InputUserSelf\x7b\x7d" := by decide
example : getTypeExample "Vector<Vector<int>>" false true =
    "[]tg.VectorInt\x7b&tg.VectorInt\x7b\x7d\x7d" := by decide
example : getTypeExample "flags.1?true" false true = "true" := by decide
example : getTypeExample "Vector<double>" false true =
    "[]tg.Double\x7b&tg.Double\x7b\x7d\x7d" := by decide
example : getTypeExample "Update" false true = "&tg.UpdateNewMessage\x7b\x7d" := by decide

/-! ## Entity model (the JSON documents consumed by build_html.py) -/

/-- A field record of the JSON model (`FieldInfo` of tl_doc_scraper.py;
the unused `description` member is not modelled). -/
structure TLField where
  name : String
  type : String
deriving DecidableEq

/-- An entry of the JSON model, as read by build_html.py via `item['name']`,
`item.get('fields', [])` and `item.get('result_type', ...)`.  `result_type`
is optional to model the `dict.get` default. -/
structure Entity where
  name : String
  fields : List TLField
  result_type : Option String
deriving DecidableEq

/-- The two entity kinds (the `category` strings of the source). -/
inductive Kind where
  | constructor
  | method
deriving DecidableEq

/-- `'flags.' in t and '?' in t` (build_html.py:333 and 402). -/
def isOptionalType (t : String) : Bool :=
  subL "flags.".data t.data && subL "?".data t.data

/-- The effective displayed type: `re.sub(r'^flags\.\d+\?', '', t)`
(build_html.py:194). -/
def effectiveType (t : String) : String :=
  ⟨stripFlags t.data⟩

/-- The displayable fields of an entity: the loops of
`generate_gogram_example` skip a field iff `name == 'flags'` or
`type == '#'` (build_html.py:326 and 398). -/
def displayFields (it : Entity) : List TLField :=
  it.fields.filter (fun f => !(f.name == "flags" || f.type == "#"))

def methodReq (it : Entity) : List TLField :=
  (displayFields it).filter (fun f => !isOptionalType f.type)

def methodOpt (it : Entity) : List TLField :=
  (displayFields it).filter (fun f => isOptionalType f.type)

/-- `required_params`: pairs `(go_param, example_val)` in declaration order
(the third tuple component of the source, the raw field type, is never
read afterwards and is not modelled). -/
def requiredParams (it : Entity) : List (String × String) :=
  (methodReq it).map (fun f => (toGoName f.name, getTypeExample f.type false true))

def optionalParams (it : Entity) : List (String × String) :=
  (methodOpt it).map (fun f => (toGoName f.name, getTypeExample f.type false true))

/-- `use_positional = len(required_params) <= 5 and len(optional_params) == 0`
(build_html.py:349). -/
def usePositional (it : Entity) : Bool :=
  (requiredParams it).length ≤ 5 && (optionalParams it).length == 0

/-- `result_type = item.get('result_type', 'Response')` then
`go_result = to_go_name(result_type) if result_type else 'Response'`. -/
def resultGoName (it : Entity) : String :=
  let rt := it.result_type.getD "Response"
  if rt = "" then "Response" else toGoName rt

/-- `name.split('.')[-1] if '.' in name else name` (build_html.py:312). -/
def lastComp (name : String) : String :=
  ⟨(name.data.reverse.takeWhile (fun c => !(c.toNat == 46))).reverse⟩

/-- The go name used by `generate_gogram_example`, with the `Obj` suffix
added for a constructor whose namespace-stripped raw name is a key of the
(truthy, i.e. non-empty) type map (build_html.py:304-314). -/
def goDisplayName (name : String) (cat : Kind) (tm : List (String × List Entity)) : String :=
  let go := toGoName name
  if cat = Kind.constructor ∧ tm ≠ [] then
    if (tm.map Prod.fst).contains (lastComp name) then go ++ "Obj" else go
  else go

def renderReqLine (p : String × String) : String :=
  "    " ++ p.1 ++ ": " ++ p.2 ++ ","

def renderOptLine (p : String × String) : String :=
  "    // " ++ p.1 ++ ": " ++ p.2 ++ ","

/-- `params_lines` of the method Params-struct branch (build_html.py:363-377). -/
def methodParamsLines (it : Entity) : List String :=
  ((requiredParams it).take 8).map renderReqLine
    ++ (if 8 < (requiredParams it).length then ["    // ..."] else [])
    ++ (if optionalParams it ≠ [] then
          ["", "    // Optional fields:"]
            ++ ((optionalParams it).take 4).map renderOptLine
            ++ (if 4 < (optionalParams it).length then ["    // ..."] else [])
        else [])

/-- `params_lines` of the constructor branch (build_html.py:410-423). -/
def ctorParamsLines (it : Entity) : List String :=
  ((requiredParams it).take 6).map renderReqLine
    ++ (if 6 < (requiredParams it).length then ["    // ... more required fields"] else [])
    ++ (if optionalParams it ≠ [] then
          ["", "    // Optional fields:"]
            ++ ((optionalParams it).take 4).map renderOptLine
            ++ (if 4 < (optionalParams it).length then ["    // ... more optional fields"]
                else [])
        else [])

def joinNL (ls : List String) : String :=
  String.intercalate "\n" ls

/-- The positional-arguments method example (build_html.py:351-360). -/
def methodPositionalExample (it : Entity) (tm : List (String × List Entity)) : String :=
  let g := goDisplayName it.name Kind.method tm
  let args := String.intercalate ", " ((requiredParams it).map Prod.snd)
  "// " ++ g ++ " - positional arguments\nresult, err := client." ++ g ++ "(" ++ args
    ++ ")\nif err != nil \x7b\n    // handle error\n\x7d\n// result is *tg." ++ resultGoName it

/-- The Params-struct method example (build_html.py:361-387). -/
def methodStructExample (it : Entity) (tm : List (String × List Entity)) : String :=
  let g := goDisplayName it.name Kind.method tm
  "// " ++ g ++ " - using Params struct\nresult, err := client." ++ g ++ "(&tg." ++ g
    ++ "Params\x7b\n" ++ joinNL (methodParamsLines it)
    ++ "\n\x7d)\nif err != nil \x7b\n    // handle error\n\x7d\n// result is *tg."
    ++ resultGoName it

/-- The constructor struct-literal example (build_html.py:389-433). -/
def ctorExample (it : Entity) (tm : List (String × List Entity)) : String :=
  let g := goDisplayName it.name Kind.constructor tm
  if ctorParamsLines it ≠ [] then
    "// Creating " ++ g ++ " constructor\nobj := &tg." ++ g ++ "\x7b\n"
      ++ joinNL (ctorParamsLines it) ++ "\n\x7d"
  else
    "// Creating " ++ g ++ " constructor\nobj := &tg." ++ g ++ "\x7b\x7d"

/-- `generate_gogram_example` (build_html.py:292-435). -/
def genExample (it : Entity) (cat : Kind) (tm : List (String × List Entity)) : String :=
  match cat with
  | Kind.method =>
    if usePositional it then methodPositionalExample it tm else methodStructExample it tm
  | Kind.constructor => ctorExample it tm

example :
    genExample
      ⟨"messages.sendMessage",
        [⟨"flags", "#"⟩, ⟨"peer", "InputPeer"⟩, ⟨"message", "string"⟩,
         ⟨"random_id", "long"⟩, ⟨"silent", "flags.5?true"⟩], some "Updates"⟩
      Kind.method [("Message", [])] =
    "// MessagesSendMessage - using Params struct\nresult, err := client.MessagesSendMessage(&tg.MessagesSendMessageParams\x7b\n    Peer: &tg.InputPeerUser\x7bUserID: int64(123456789)\x7d,\n    Message: \"...\",\n    RandomId: int64(0),\n\n    // Optional fields:\n    // Silent: true,\n\x7d)\nif err != nil \x7b\n    // handle error\n\x7d\n// result is *tg.Updates" := by
  decide

example :
    genExample
      ⟨"m2", [⟨"peer", "InputPeer"⟩, ⟨"message", "string"⟩], some "Updates"⟩
      Kind.method [("Message", [])] =
    "// M2 - positional arguments\nresult, err := client.M2(&tg.InputPeerUser\x7bUserID: int64(123456789)\x7d, \"...\")\nif err != nil \x7b\n    // handle error\n\x7d\n// result is *tg.Updates" := by
  decide

example :
    genExample
      ⟨"message", [⟨"id", "int"⟩, ⟨"silent", "flags.1?true"⟩], some "Message"⟩
      Kind.constructor [("Message", [])] =
    "// Creating Message constructor\nobj := &tg.Message\x7b\n    Id: 0,\n\n    // Optional fields:\n    // Silent: true,\n\x7d" := by
  decide

example :
    genExample ⟨"inputPeerEmpty", [], some "InputPeer"⟩ Kind.constructor [("Message", [])] =
    "// Creating InputPeerEmpty constructor\nobj := &tg.InputPeerEmpty\x7b\x7d" := by
  decide

/-! ## `parse_tl_definition` (tl_doc_scraper.py:104-143)

The declaration regex
`^([a-zA-Z_][a-zA-Z0-9_\.]*)\#[0-9a-fA-F]+\s*(.*?)\s*=\s*([a-zA-Z_][a-zA-Z0-9_\.]*)`
is embedded as an executable matcher reproducing the engine's behaviour:
the name and hex runs are greedy and deterministic, and the lazy `(.*?)`
is realised by scanning candidate end positions of the middle group left
to right ( `.` does not match a newline, while `\s` does). -/

/-- Try `\s*=\s*NAME` at the current position; on success return the
captured NAME (group 3 of the declaration regex). -/
def eqTail (u : List Char) : Option (List Char) :=
  match u.dropWhile isWsCh with
  | c :: v =>
    if c.toNat == 61 then
      match v.dropWhile isWsCh with
      | d :: r => if isNameStartCh d then some (d :: (takeRun isDotNameCh r).1) else none
      | [] => none
    else none
  | [] => none

/-- Scan for the end of the lazy middle group: at each candidate position
try `\s*=\s*NAME`; otherwise extend the middle group by one character,
which is impossible across a newline.  Returns (group 2, group 3). -/
def scanMid (acc : List Char) : List Char → Option (List Char × List Char)
  | [] =>
    match eqTail [] with
    | some rt => some (acc.reverse, rt)
    | none => none
  | c :: rest =>
    match eqTail (c :: rest) with
    | some rt => some (acc.reverse, rt)
    | none => if c.toNat == 10 then none else scanMid (c :: acc) rest

/-- The whole declaration regex: returns (name, group 2, result type). -/
def declMatch (l : List Char) : Option (List Char × List Char × List Char) :=
  match l with
  | c :: cs =>
    if isNameStartCh c then
      let nr := takeRun isDotNameCh cs
      match nr.2 with
      | h :: hs =>
        if h.toNat == 35 then
          let hx := takeRun isHexCh hs
          if hx.1.isEmpty then none
          else
            match scanMid [] (hx.2.dropWhile isWsCh) with
            | some (mid, rt) => some (c :: nr.1, mid, rt)
            | none => none
        else none
      | [] => none
    else none
  | [] => none

/-- One attempt of the parameter pattern
`([a-zA-Z_][a-zA-Z0-9_]*):([^\s]+)` at the current position. -/
def paramAt (l : List Char) : Option ((List Char × List Char) × List Char) :=
  match l with
  | c :: cs =>
    if isNameStartCh c then
      let w := takeRun isWordCh cs
      match w.2 with
      | d :: r2 =>
        if d.toNat == 58 then
          let ty := takeRun (fun e => !isWsCh e) r2
          if ty.1.isEmpty then none else some ((c :: w.1, ty.1), ty.2)
        else none
      | [] => none
    else none
  | [] => none

theorem paramAt_rest_lt {l : List Char} {p : List Char × List Char} {rest : List Char}
    (h : paramAt l = some (p, rest)) : rest.length < l.length := by
  unfold paramAt at h
  cases l with
  | nil => cases h
  | cons c cs =>
    by_cases hc : isNameStartCh c = true
    · simp only [hc, if_true] at h
      cases hw : (takeRun isWordCh cs).2 with
      | nil => rw [hw] at h; cases h
      | cons d r2 =>
        rw [hw] at h
        by_cases hd : (d.toNat == 58) = true
        · simp only [hd, if_true] at h
          by_cases he : (takeRun (fun e => !isWsCh e) r2).1.isEmpty
          · simp [he] at h
          · simp only [he, if_false] at h
            injection h with h
            have hrest : rest = (takeRun (fun e => !isWsCh e) r2).2 := by
              have := congrArg Prod.snd h
              simpa using this.symm
            have h1 : (takeRun (fun e => !isWsCh e) r2).2.length ≤ r2.length :=
              takeRun_drop_length _ _
            have h2 : r2.length < (takeRun isWordCh cs).2.length := by
              rw [hw]; simp
            have h3 : (takeRun isWordCh cs).2.length ≤ cs.length :=
              takeRun_drop_length _ _
            rw [hrest]
            simp only [List.length_cons]
            omega
        · simp [hd] at h
    · simp [hc] at h

/-- Fuel-driven `re.finditer` scanner for the parameter pattern. -/
def findParamsF : Nat → List Char → List (List Char × List Char)
  | 0, _ => []
  | _ + 1, [] => []
  | fuel + 1, c :: cs =>
    match paramAt (c :: cs) with
    | some (p, rest) => p :: findParamsF fuel rest
    | none => findParamsF fuel cs

theorem findParamsF_congr : ∀ f1 f2 (l : List Char), l.length ≤ f1 → l.length ≤ f2 →
    findParamsF f1 l = findParamsF f2 l := by
  intro f1
  induction f1 with
  | zero =>
    intro f2 l h1 _
    have : l = [] := List.length_eq_zero.mp (Nat.le_zero.mp h1)
    subst this
    cases f2 <;> rfl
  | succ f ih =>
    intro f2 l h1 h2
    cases l with
    | nil => cases f2 <;> rfl
    | cons c cs =>
      cases f2 with
      | zero => simp at h2
      | succ g =>
        simp only [findParamsF]
        cases hm : paramAt (c :: cs) with
        | some x =>
          obtain ⟨p, rest⟩ := x
          have hlt := paramAt_rest_lt hm
          simp only [List.length_cons] at h1 h2 hlt
          show p :: findParamsF f rest = p :: findParamsF g rest
          rw [ih g rest (by omega) (by omega)]
        | none =>
          simp only [List.length_cons] at h1 h2
          show findParamsF f cs = findParamsF g cs
          exact ih g cs (by omega) (by omega)

/-- `re.finditer(r'([a-zA-Z_][a-zA-Z0-9_]*):([^\s]+)', s)`: all
non-overlapping parameter matches, left to right. -/
def findParams (l : List Char) : List (List Char × List Char) :=
  findParamsF l.length l

theorem findParams_cons (c : Char) (cs : List Char) :
    findParams (c :: cs) =
      match paramAt (c :: cs) with
      | some (p, rest) => p :: findParams rest
      | none => findParams cs := by
  show findParamsF (cs.length + 1) (c :: cs) = _
  simp only [findParamsF]
  cases hm : paramAt (c :: cs) with
  | some x =>
    obtain ⟨p, rest⟩ := x
    have hlt := paramAt_rest_lt hm
    simp only [List.length_cons] at hlt
    show p :: findParamsF cs.length rest = p :: findParamsF rest.length rest
    rw [findParamsF_congr cs.length rest.length rest (by omega) (by omega)]
  | none => rfl

/-- `parse_tl_definition` (tl_doc_scraper.py:104-143).  Mirrors the
Python return convention: the failure result is the tuple
`(None, [], None)`. -/
def parseTL (line : String) : Option String × List TLField × Option String :=
  match declMatch line.data with
  | none => (none, [], none)
  | some (nm, mid, rt) =>
    let ps := trimL mid
    let fields : List TLField :=
      if ps.isEmpty then []
      else
        (findParams ps).filterMap
          (fun p => if p.2 = ['#'] then none else some ⟨⟨p.1⟩, ⟨p.2⟩⟩)
    (some ⟨nm⟩, fields, some ⟨rt⟩)

example :
    parseTL "inputPeerUser#d3fae24a user_id:long = InputPeer;" =
      (some "inputPeerUser", [⟨"user_id", "long"⟩], some "InputPeer") := by decide
example : parseTL "foo#ab" = (none, [], none) := by decide
example :
    parseTL "a.b.c#1f x:int = T;" = (some "a.b.c", [⟨"x", "int"⟩], some "T") := by decide
example : parseTL "foo#ab = T" = (some "foo", [], some "T") := by decide
example : parseTL "foo#abz= T" = (some "foo", [], some "T") := by decide
example : parseTL "foo#ab ==T" = (some "foo", [], some "T") := by decide
example : parseTL "foo#ab x=y = Z;" = (some "foo", [], some "y") := by decide
example : parseTL "ab.#ff = X;" = (some "ab.", [], some "X") := by decide
example : parseTL "" = (none, [], none) := by decide
example : parseTL "#ff = X;" = (none, [], none) := by decide
example : parseTL "foo#ab x\ny = T" = (none, [], none) := by decide
example : parseTL "foo#ab \n= T" = (some "foo", [], some "T") := by decide
example : parseTL "a#1 = \n X" = (some "a", [], some "X") := by decide
example : parseTL "a#1 =\n" = (none, [], none) := by decide
example : parseTL "a#1 b = " = (none, [], none) := by decide
example : parseTL "a#1 b == c" = (some "a", [], some "c") := by decide
example : parseTL "a#1\n= T" = (some "a", [], some "T") := by decide
example : parseTL "a#1 x \n = T" = (some "a", [], some "T") := by decide
example : parseTL "foo#ab=x=T" = (some "foo", [], some "x") := by decide

/-! ## The type map of `build_html_docs` (build_html.py:1842-1850) -/

/-- Python `str.strip()` on strings. -/
def stripS (s : String) : String :=
  ⟨trimL s.data⟩

/-- Append `it` to the entry keyed `k` (creating it at the end if absent):
`type_map.setdefault(k, []).append(item)` shape of the source loop, on an
insertion-ordered association list. -/
def tgInsert (acc : List (String × List Entity)) (k : String) (it : Entity) :
    List (String × List Entity) :=
  match acc with
  | [] => [(k, [it])]
  | (k', l) :: rest =>
    if k' = k then (k', l ++ [it]) :: rest else (k', l) :: tgInsert rest k it

/-- `result_type and not result_type.startswith('Vector')`. -/
def tgPass (it : Entity) : Bool :=
  !(it.result_type.getD "" == "") &&
    !(isPrefixL "Vector".data (it.result_type.getD "").data)

/-- One iteration of the type-map loop of `build_html_docs`. -/
def tgStep (acc : List (String × List Entity)) (it : Entity) :
    List (String × List Entity) :=
  if tgPass it then tgInsert acc (stripS (it.result_type.getD "")) it else acc

/-- The type map built by `build_html_docs` (build_html.py:1842-1850). -/
def buildTypeGraph (ctors : List Entity) : List (String × List Entity) :=
  ctors.foldl tgStep []

/-- Lookup in the association list (`type_map[k]`, `[]` when absent). -/
def tgGet (g : List (String × List Entity)) (k : String) : List Entity :=
  match g with
  | [] => []
  | (k', l) :: rest => if k' = k then l else tgGet rest k

theorem tgGet_tgInsert (acc : List (String × List Entity)) (k k' : String) (it : Entity) :
    tgGet (tgInsert acc k' it) k =
      if k' = k then tgGet acc k ++ [it] else tgGet acc k := by
  induction acc with
  | nil =>
    by_cases h : k' = k <;> simp [tgInsert, tgGet, h]
  | cons e rest ih =>
    obtain ⟨k0, l0⟩ := e
    by_cases h0 : k0 = k'
    · simp only [tgInsert, if_pos h0, tgGet]
      by_cases hk : k0 = k
      · have hk' : k' = k := h0.symm.trans hk
        simp [tgGet, hk, hk']
      · have hk' : ¬ k' = k := fun h => hk (h0.trans h)
        simp [tgGet, hk, hk']
    · simp only [tgInsert, if_neg h0, tgGet]
      by_cases hk : k0 = k
      · have hk' : ¬ k' = k := fun h => h0 (hk.trans h.symm)
        simp [tgGet, hk, hk']
      · simp only [if_neg hk, ih]

theorem keys_tgInsert (acc : List (String × List Entity)) (k : String) (it : Entity) :
    (tgInsert acc k it).map Prod.fst =
      if k ∈ acc.map Prod.fst then acc.map Prod.fst else acc.map Prod.fst ++ [k] := by
  induction acc with
  | nil => simp [tgInsert]
  | cons e rest ih =>
    obtain ⟨k0, l0⟩ := e
    by_cases h0 : k0 = k
    · subst h0
      simp [tgInsert]
    · simp only [tgInsert, if_neg h0, List.map_cons, ih]
      have : (k ∈ k0 :: rest.map Prod.fst) ↔ (k ∈ rest.map Prod.fst) := by
        constructor
        · intro h
          rcases List.mem_cons.mp h with h | h
          · exact absurd h.symm h0
          · exact h
        · exact fun h => List.mem_cons_of_mem _ h
      by_cases hmem : k ∈ rest.map Prod.fst <;> simp_all

/-- The per-key filter of the type-map loop. -/
def tgKeyPred (k : String) (it : Entity) : Bool :=
  tgPass it && (stripS (it.result_type.getD "") == k)

theorem tgGet_foldl (l : List Entity) :
    ∀ (acc : List (String × List Entity)) (k : String),
      tgGet (l.foldl tgStep acc) k = tgGet acc k ++ l.filter (tgKeyPred k) := by
  induction l with
  | nil => intro acc k; simp
  | cons it l ih =>
    intro acc k
    rw [List.foldl_cons, ih]
    unfold tgStep tgKeyPred
    by_cases hp : tgPass it
    · rw [if_pos hp]
      rw [tgGet_tgInsert]
      by_cases hk : stripS (it.result_type.getD "") = k
      · rw [if_pos hk]
        have : (tgPass it && (stripS (it.result_type.getD "") == k)) = true := by
          simp [hp, hk]
        simp [List.filter_cons, this]
      · rw [if_neg hk]
        have : (tgPass it && (stripS (it.result_type.getD "") == k)) = false := by
          simp [hk]
        simp [List.filter_cons, this]
    · rw [if_neg hp]
      have hp' : tgPass it = false := by simpa using hp
      have : (tgPass it && (stripS (it.result_type.getD "") == k)) = false := by
        simp [hp']
      simp [List.filter_cons, this]

/-- Lookup characterization of the type map: the entry at key `k` is the
ordered sublist of constructors whose (raw) result type passes the
filter and strips to `k`. -/
theorem tgGet_buildTypeGraph (ctors : List Entity) (k : String) :
    tgGet (buildTypeGraph ctors) k = ctors.filter (tgKeyPred k) := by
  have := tgGet_foldl ctors [] k
  simpa [buildTypeGraph, tgGet] using this

theorem keys_tgStep (acc : List (String × List Entity)) (it : Entity) (k : String) :
    k ∈ (tgStep acc it).map Prod.fst ↔
      k ∈ acc.map Prod.fst ∨ tgKeyPred k it = true := by
  unfold tgStep
  by_cases hp : tgPass it = true
  · rw [if_pos hp, keys_tgInsert]
    have hpred : tgKeyPred k it = true ↔ stripS (it.result_type.getD "") = k := by
      simp [tgKeyPred, hp]
    by_cases hmem : stripS (it.result_type.getD "") ∈ acc.map Prod.fst
    · rw [if_pos hmem, hpred]
      constructor
      · exact Or.inl
      · rintro (h | h)
        · exact h
        · rw [← h]; exact hmem
    · rw [if_neg hmem, hpred]
      simp [List.mem_append, eq_comm]
  · rw [if_neg hp]
    have : tgKeyPred k it = false := by
      simp only [tgKeyPred, Bool.and_eq_false_iff]
      left
      simpa using hp
    simp [this]

theorem keys_foldl (l : List Entity) :
    ∀ (acc : List (String × List Entity)) (k : String),
      k ∈ (l.foldl tgStep acc).map Prod.fst ↔
        k ∈ acc.map Prod.fst ∨ ∃ it ∈ l, tgKeyPred k it = true := by
  induction l with
  | nil => intro acc k; simp
  | cons it l ih =>
    intro acc k
    rw [List.foldl_cons, ih, keys_tgStep]
    constructor
    · rintro ((h | h) | h)
      · exact Or.inl h
      · exact Or.inr ⟨it, List.mem_cons_self _ _, h⟩
      · obtain ⟨x, hx, hpx⟩ := h
        exact Or.inr ⟨x, List.mem_cons_of_mem _ hx, hpx⟩
    · rintro (h | h)
      · exact Or.inl (Or.inl h)
      · obtain ⟨x, hx, hpx⟩ := h
        rcases List.mem_cons.mp hx with rfl | hx
        · exact Or.inl (Or.inr hpx)
        · exact Or.inr ⟨x, hx, hpx⟩

/-- Key-set characterization of the type map: `k` is a key exactly when
some constructor passes the filter and has a result type stripping to
`k`. -/
theorem keys_buildTypeGraph (ctors : List Entity) (k : String) :
    k ∈ (buildTypeGraph ctors).map Prod.fst ↔
      ∃ it ∈ ctors, tgKeyPred k it = true := by
  have := keys_foldl ctors [] k
  simpa [buildTypeGraph] using this

/-! ## Structural facts about the word scanner -/

theorem matchAlt1_append {l m rest : List Char} (h : matchAlt1 l = some (m, rest)) :
    m ++ rest = l := by
  unfold matchAlt1 at h
  cases l with
  | nil => cases h
  | cons c cs =>
    by_cases hu : isUpperCh c = true
    · simp only [hu, if_true] at h
      cases cs with
      | nil => cases h
      | cons d ds =>
        by_cases hd : isLowerCh d = true
        · simp only [hd, if_true] at h
          injection h with h
          have hm : m = c :: (takeRun isLowerCh (d :: ds)).1 := by
            have := congrArg Prod.fst h
            simpa using this.symm
          have hr : rest = (takeRun isLowerCh (d :: ds)).2 := by
            have := congrArg Prod.snd h
            simpa using this.symm
          rw [hm, hr, List.cons_append, takeRun_append_eq]
        · simp [hd] at h
    · simp only [Bool.not_eq_true] at hu
      simp only [hu, if_false] at h
      by_cases hl : isLowerCh c = true
      · simp only [hl, if_true] at h
        injection h with h
        have hm : m = (takeRun isLowerCh (c :: cs)).1 := by
          have := congrArg Prod.fst h
          simpa using this.symm
        have hr : rest = (takeRun isLowerCh (c :: cs)).2 := by
          have := congrArg Prod.snd h
          simpa using this.symm
        rw [hm, hr, takeRun_append_eq]
      · simp [hl] at h

theorem matchAlt2_append {l m rest : List Char} (h : matchAlt2 l = some (m, rest)) :
    m ++ rest = l := by
  unfold matchAlt2 at h
  by_cases hre : (takeRun isUpperCh l).1.isEmpty
  · simp [hre] at h
  · simp only [hre, if_false] at h
    by_cases hla : lookAheadOk (takeRun isUpperCh l).2 = true
    · simp only [hla, if_true] at h
      injection h with h
      have hm : m = (takeRun isUpperCh l).1 := by
        have := congrArg Prod.fst h
        simpa using this.symm
      have hr : rest = (takeRun isUpperCh l).2 := by
        have := congrArg Prod.snd h
        simpa using this.symm
      rw [hm, hr, takeRun_append_eq]
    · simp only [hla, if_false] at h
      by_cases hc : headLower (takeRun isUpperCh l).2 = true ∧
          2 ≤ (takeRun isUpperCh l).1.length
      · rw [if_pos hc] at h
        injection h with h
        have hm : m = (takeRun isUpperCh l).1.take ((takeRun isUpperCh l).1.length - 1) := by
          have := congrArg Prod.fst h
          simpa using this.symm
        have hr : rest = (takeRun isUpperCh l).1.drop ((takeRun isUpperCh l).1.length - 1)
            ++ (takeRun isUpperCh l).2 := by
          have := congrArg Prod.snd h
          simpa using this.symm
        rw [hm, hr, ← List.append_assoc, List.take_append_drop, takeRun_append_eq]
      · rw [if_neg hc] at h
        cases h

theorem matchAlt3_append {l m rest : List Char} (h : matchAlt3 l = some (m, rest)) :
    m ++ rest = l := by
  unfold matchAlt3 at h
  by_cases hre : (takeRun isDigitCh l).1.isEmpty
  · simp [hre] at h
  · simp only [hre, if_false] at h
    injection h with h
    have hm : m = (takeRun isDigitCh l).1 := by
      have := congrArg Prod.fst h
      simpa using this.symm
    have hr : rest = (takeRun isDigitCh l).2 := by
      have := congrArg Prod.snd h
      simpa using this.symm
    rw [hm, hr, takeRun_append_eq]

/-- Every match of the word pattern splits the input:
matched word ++ remainder = input. -/
theorem wordMatchAt_append {l m rest : List Char}
    (h : wordMatchAt l = some (m, rest)) : m ++ rest = l := by
  unfold wordMatchAt at h
  cases h1 : matchAlt1 l with
  | some x =>
    rw [h1] at h
    injection h with h
    subst h
    exact matchAlt1_append h1
  | none =>
    rw [h1] at h
    cases h2 : matchAlt2 l with
    | some x =>
      rw [h2] at h
      injection h with h
      subst h
      exact matchAlt2_append h2
    | none =>
      rw [h2] at h
      exact matchAlt3_append h

theorem findWordsF_mem : ∀ (fuel : Nat) (l w : List Char),
    w ∈ findWordsF fuel l → ∀ c ∈ w, c ∈ l := by
  intro fuel
  induction fuel with
  | zero => intro l w hw; simp [findWordsF] at hw
  | succ f ih =>
    intro l w hw
    cases l with
    | nil => simp [findWordsF] at hw
    | cons c cs =>
      simp only [findWordsF] at hw
      cases hm : wordMatchAt (c :: cs) with
      | some x =>
        obtain ⟨m, rest⟩ := x
        rw [hm] at hw
        have happ := wordMatchAt_append hm
        rcases List.mem_cons.mp hw with rfl | hw
        · intro d hd
          rw [← happ]
          exact List.mem_append_left _ hd
        · intro d hd
          rw [← happ]
          exact List.mem_append_right _ (ih rest w hw d hd)
      | none =>
        rw [hm] at hw
        intro d hd
        exact List.mem_cons_of_mem c (ih cs w hw d hd)

theorem findWords_mem {l w : List Char} (hw : w ∈ findWords l) : ∀ c ∈ w, c ∈ l :=
  findWordsF_mem l.length l w hw

/-! ## No dots or underscores survive the mangler (claim C8 support) -/

theorem splitUnd_mem : ∀ (l : List Char) (s : List Char), s ∈ splitUnd l →
    ∀ c ∈ s, c ∈ l ∧ c.toNat ≠ 95 := by
  intro l
  induction l with
  | nil =>
    intro s hs c hc
    simp only [splitUnd, List.mem_singleton] at hs
    subst hs
    cases hc
  | cons x xs ih =>
    intro s hs c hc
    by_cases hx : (x.toNat == 95) = true
    · simp only [splitUnd, hx, if_true] at hs
      rcases List.mem_cons.mp hs with rfl | hs
      · cases hc
      · obtain ⟨h1, h2⟩ := ih s hs c hc
        exact ⟨List.mem_cons_of_mem x h1, h2⟩
    · have hx' : (x.toNat == 95) = false := by simpa using hx
      simp only [splitUnd, hx', Bool.false_eq_true, if_false] at hs
      cases hrec : splitUnd xs with
      | nil =>
        rw [hrec] at hs
        simp only [List.mem_singleton] at hs
        subst hs
        rcases List.mem_cons.mp hc with rfl | hc
        · exact ⟨List.mem_cons_self _ _, by simpa using hx⟩
        · cases hc
      | cons s0 ss =>
        rw [hrec] at hs
        rcases List.mem_cons.mp hs with rfl | hs
        · rcases List.mem_cons.mp hc with rfl | hc
          · exact ⟨List.mem_cons_self _ _, by simpa using hx⟩
          · have hs0 : s0 ∈ splitUnd xs := by rw [hrec]; exact List.mem_cons_self _ _
            obtain ⟨h1, h2⟩ := ih s0 hs0 c hc
            exact ⟨List.mem_cons_of_mem x h1, h2⟩
        · have hss : s ∈ splitUnd xs := by rw [hrec]; exact List.mem_cons_of_mem _ hs
          obtain ⟨h1, h2⟩ := ih s hss c hc
          exact ⟨List.mem_cons_of_mem x h1, h2⟩

theorem replaceDots_mem {l : List Char} {c : Char} (hc : c ∈ replaceDots l) :
    c.toNat ≠ 46 := by
  simp only [replaceDots, List.mem_map] at hc
  obtain ⟨c', _, rfl⟩ := hc
  by_cases h : (c'.toNat == 46) = true
  · simp only [h, if_true]
    decide
  · have h' : (c'.toNat == 46) = false := by simpa using h
    simp only [h', Bool.false_eq_true, if_false]
    simpa using h

theorem pyCapitalize_mem {w : List Char} {c : Char} (hc : c ∈ pyCapitalize w) :
    ∃ c' ∈ w, c = upCh c' ∨ c = downCh c' := by
  cases w with
  | nil => cases hc
  | cons x xs =>
    simp only [pyCapitalize] at hc
    rcases List.mem_cons.mp hc with rfl | hc
    · exact ⟨x, List.mem_cons_self _ _, Or.inl rfl⟩
    · simp only [List.mem_map] at hc
      obtain ⟨c', hc', rfl⟩ := hc
      exact ⟨c', List.mem_cons_of_mem x hc', Or.inr rfl⟩

theorem goNamePart_mem {part : List Char} {c : Char} (hc : c ∈ goNamePart part) :
    ∃ c' ∈ part, c = upCh c' ∨ c = downCh c' := by
  unfold goNamePart at hc
  by_cases he : (findWords part).isEmpty
  · simp only [he, if_true] at hc
    exact pyCapitalize_mem hc
  · have he' : (findWords part).isEmpty = false := by simpa using he
    simp only [he', Bool.false_eq_true, if_false] at hc
    simp only [List.mem_flatten, List.mem_map] at hc
    obtain ⟨cap, ⟨w, hw, rfl⟩, hcap⟩ := hc
    obtain ⟨c', hc', hor⟩ := pyCapitalize_mem hcap
    exact ⟨c', findWords_mem hw c' hc', hor⟩

/-- C8: for every input string, the mangled name `to_go_name(x)` contains
no `.` character and no `_` character. -/
theorem toGoName_no_dot_no_underscore (x : String) :
    ∀ c ∈ (toGoName x).data, c ≠ '.' ∧ c ≠ '_' := by
  intro c hc
  have hc' : c ∈ toGoNameL x.data := hc
  unfold toGoNameL at hc'
  simp only [List.mem_flatten, List.mem_map] at hc'
  obtain ⟨partImg, ⟨part, hpart, rfl⟩, hcp⟩ := hc'
  obtain ⟨c', hc'mem, hor⟩ := goNamePart_mem hcp
  obtain ⟨hmem, hund⟩ := splitUnd_mem _ part hpart c' hc'mem
  have hdot : c'.toNat ≠ 46 := replaceDots_mem hmem
  have h46 : c.toNat ≠ 46 := by
    rcases hor with rfl | rfl
    · rcases upCh_toNat_eq_or c' with h | ⟨h1, h2⟩
      · omega
      · omega
    · rcases downCh_toNat_eq_or c' with h | ⟨h1, h2⟩
      · omega
      · omega
  have h95 : c.toNat ≠ 95 := by
    rcases hor with rfl | rfl
    · rcases upCh_toNat_eq_or c' with h | ⟨h1, h2⟩
      · omega
      · omega
    · rcases downCh_toNat_eq_or c' with h | ⟨h1, h2⟩
      · omega
      · omega
  constructor
  · intro h
    subst h
    exact h46 rfl
  · intro h
    subst h
    exact h95 rfl

theorem ne_append_obj (s : String) : s ≠ s ++ "Obj" := by
  intro h
  have hl := congrArg String.length h
  rw [String.length_append] at hl
  have h3 : "Obj".length = 3 := rfl
  omega

/-! ## Claim theorems -/

/-- C8: for every input string `x`, the mangled name `to_go_name(x)`
contains no `.` character and no `_` character. -/
theorem mangle_no_dot_no_underscore (x : String) :
    ∀ c ∈ (toGoName x).data, c ≠ '.' ∧ c ≠ '_' :=
  toGoName_no_dot_no_underscore x

/-- C8 witness: the theorem applied to the dotted, underscored name
`messages.send_message` at the character `M` of its mangling. -/
theorem mangle_no_dot_no_underscore_witness :
    'M' ∈ (toGoName "messages.send_message").data ∧ ('M' ≠ '.' ∧ 'M' ≠ '_') :=
  ⟨by decide, mangle_no_dot_no_underscore "messages.send_message" 'M' (by decide)⟩

/-- C1 counterexample: the constructor named `message` mangles to
`Message`, which is a member of the mangled interface keys of the type
graph built from it (key `Message`), yet `generate_gogram_example` does
not append the `Obj` suffix — the code compares the raw base name, not
the mangled name, so the claimed biconditional fails at this input. -/
theorem displayName_mangled_collision_counterexample :
    ¬ ((goDisplayName "message" Kind.constructor
          (buildTypeGraph [⟨"message", [], some "Message"⟩]) =
        toGoName "message" ++ "Obj") ↔
       toGoName "message" ∈
         ((buildTypeGraph [⟨"message", [], some "Message"⟩]).map Prod.fst).map toGoName) := by
  decide

/-- C1 amended: for a constructor, the display name carries the fixed
`Obj` suffix if and only if the type map is non-empty and the raw base
name (the name with any dotted namespace removed) is literally one of the
type-map keys; the mangled name plays no part in the comparison. -/
theorem displayName_obj_suffix_iff (name : String) (tm : List (String × List Entity)) :
    goDisplayName name Kind.constructor tm = toGoName name ++ "Obj" ↔
      (tm ≠ [] ∧ (tm.map Prod.fst).contains (lastComp name) = true) := by
  unfold goDisplayName
  by_cases htm : tm = []
  · subst htm
    rw [if_neg (by simp)]
    constructor
    · intro h
      exact absurd h (ne_append_obj _)
    · rintro ⟨h, _⟩
      exact absurd rfl h
  · rw [if_pos ⟨rfl, htm⟩]
    by_cases hc : (tm.map Prod.fst).contains (lastComp name) = true
    · rw [if_pos hc]
      exact ⟨fun _ => ⟨htm, hc⟩, fun _ => rfl⟩
    · rw [if_neg hc]
      constructor
      · intro h
        exact absurd h (ne_append_obj _)
      · rintro ⟨_, h⟩
        exact absurd h hc

/-- C1 amended witness at a concrete input: constructor `Message` (raw
name equal to the interface key) gets the suffix, constructor `message`
does not. -/
theorem displayName_obj_suffix_iff_witness :
    goDisplayName "Message" Kind.constructor [("Message", [])] = "MessageObj" ∧
    goDisplayName "message" Kind.constructor [("Message", [])] = "Message" := by
  constructor
  · have h := (displayName_obj_suffix_iff "Message" [("Message", [])]).mpr
      (by constructor <;> decide)
    rw [h]
    decide
  · decide

/-- C5 counterexample: for a constructor whose raw result type is
`" InputPeer"` (leading space), the claim predicts the key set
`{" InputPeer"}`, but the code strips whitespace before keying, so the
only key is `"InputPeer"` — the claimed key-set equality fails. -/
theorem buildTypeGraph_rawkey_counterexample :
    ¬ (∀ k : String,
        k ∈ (buildTypeGraph [⟨"c", [], some " InputPeer"⟩]).map Prod.fst ↔
        (∃ it ∈ [(⟨"c", [], some " InputPeer"⟩ : Entity)],
          it.result_type.getD "" = k ∧ k ≠ "" ∧
            isPrefixL "Vector".data k.data = false)) := by
  intro h
  have h1 := (h "InputPeer").mp (by decide)
  exact absurd h1 (by decide)

/-- C5 amended: `buildTypeGraph` keys the map by the *stripped* result
type of every constructor whose raw result type is non-empty and does not
start with `Vector`; the entry of key `k` is exactly the ordered sublist
of such constructors whose stripped result type equals `k`; and on the
two-constructor `InputPeer` example the graph is the single key
`InputPeer` with both constructors in declaration order. -/
theorem buildTypeGraph_spec :
    (∀ (ctors : List Entity) (k : String),
        tgGet (buildTypeGraph ctors) k = ctors.filter (tgKeyPred k)) ∧
    (∀ (ctors : List Entity) (k : String),
        k ∈ (buildTypeGraph ctors).map Prod.fst ↔
          ∃ it ∈ ctors, tgKeyPred k it = true) ∧
    buildTypeGraph
        [⟨"inputPeerUser", [⟨"user_id", "long"⟩], some "InputPeer"⟩,
         ⟨"inputPeerChat", [⟨"chat_id", "long"⟩], some "InputPeer"⟩] =
      [("InputPeer",
        [⟨"inputPeerUser", [⟨"user_id", "long"⟩], some "InputPeer"⟩,
         ⟨"inputPeerChat", [⟨"chat_id", "long"⟩], some "InputPeer"⟩])] := by
  refine ⟨tgGet_buildTypeGraph, keys_buildTypeGraph, ?_⟩
  decide

/-- C3: `parse_tl_definition` on the `inputMediaPhoto` line yields exactly
the three displayable fields (the `flags:#` header pair is excluded),
`spoiler` is optional with effective type `true`, and `ttl_seconds` is
optional with effective type `int`. -/
theorem parseTL_inputMediaPhoto :
    parseTL "inputMediaPhoto#b3ba0635 flags:# spoiler:flags.1?true id:InputPhoto ttl_seconds:flags.0?int = InputMedia;" =
      (some "inputMediaPhoto",
        [⟨"spoiler", "flags.1?true"⟩, ⟨"id", "InputPhoto"⟩,
         ⟨"ttl_seconds", "flags.0?int"⟩],
        some "InputMedia") ∧
    (displayFields
        ⟨"inputMediaPhoto",
          [⟨"spoiler", "flags.1?true"⟩, ⟨"id", "InputPhoto"⟩,
           ⟨"ttl_seconds", "flags.0?int"⟩], some "InputMedia"⟩).length = 3 ∧
    isOptionalType "flags.1?true" = true ∧ effectiveType "flags.1?true" = "true" ∧
    isOptionalType "InputPhoto" = false ∧
    isOptionalType "flags.0?int" = true ∧ effectiveType "flags.0?int" = "int" := by
  refine ⟨by decide, by decide, by decide, by decide, by decide, by decide, by decide⟩

/-- The early (primitive) branches of `get_type_example`, as one list. -/
def primCases : List String := ["int", "int32", "long", "int64", "double", "bytes", "Bool", "true"]

/-- C10: `get_type_example` is total and falls back to `nil` when the
cleaned type matches no earlier branch and is not capitalized, and to an
opaque placeholder instance `&tg.<Name>{}` when it is capitalized but
registered in neither curated table; the empty string and the malformed
vector `Vector<` are concrete such fallbacks. -/
theorem getTypeExample_fallbacks :
    (∀ ic ex : Bool, getTypeExample "" ic ex = "nil") ∧
    (∀ (ic ex : Bool) (t : String),
      subL "string".data (stripFlags t.data) = false →
      (⟨stripFlags t.data⟩ : String) ∉ primCases →
      vecInner (stripFlags t.data) = none →
      headUpperCh (stripFlags t.data) = false →
      getTypeExample t ic ex = "nil") ∧
    (∀ (ic ex : Bool) (t : String),
      subL "string".data (stripFlags t.data) = false →
      (⟨stripFlags t.data⟩ : String) ∉ primCases →
      vecInner (stripFlags t.data) = none →
      headUpperCh (stripFlags t.data) = true →
      alook ⟨stripFlags t.data⟩ INTERFACE_EXAMPLES = none →
      alook ⟨stripFlags t.data⟩ STRUCT_EXPANSIONS = none →
      getTypeExample t ic ex = "&tg." ++ toGoName ⟨stripFlags t.data⟩ ++ "\x7b\x7d") ∧
    (∀ ic ex : Bool, getTypeExample "Vector<" ic ex = "&tg.Vector\x7b\x7d") := by
  refine ⟨by decide, ?_, ?_, by decide⟩
  · intro ic ex t h1 h2 hv hu
    simp only [primCases, List.mem_cons, List.not_mem_nil, not_or] at h2
    obtain ⟨e1, e2, e3, e4, e5, e6, e7, e8, -⟩ := h2
    unfold getTypeExample
    dsimp only
    rw [h1, hv, hu]
    rw [if_neg (by simp)]
    rw [if_neg (not_or.mpr ⟨e1, e2⟩), if_neg (not_or.mpr ⟨e3, e4⟩), if_neg e5,
      if_neg e6, if_neg (not_or.mpr ⟨e7, e8⟩)]
    rfl
  · intro ic ex t h1 h2 hv hu hi hs
    simp only [primCases, List.mem_cons, List.not_mem_nil, not_or] at h2
    obtain ⟨e1, e2, e3, e4, e5, e6, e7, e8, -⟩ := h2
    unfold getTypeExample
    dsimp only
    rw [h1, hv, hu]
    rw [if_neg (by simp)]
    rw [if_neg (not_or.mpr ⟨e1, e2⟩), if_neg (not_or.mpr ⟨e3, e4⟩), if_neg e5,
      if_neg e6, if_neg (not_or.mpr ⟨e7, e8⟩)]
    rw [if_pos rfl, hi]
    have hexp : getExpandedStruct ⟨stripFlags t.data⟩ = none := by
      unfold getExpandedStruct
      rw [hs]
    rw [hexp]
    cases ex <;> rfl

/-- C10 witness: the theorem applied at the unknown lowercase name `zzz`
and at the capitalized unregistered name `Zebra`. -/
theorem getTypeExample_fallbacks_witness :
    getTypeExample "zzz" false false = "nil" ∧
    getTypeExample "Zebra" false true = "&tg." ++ toGoName "Zebra" ++ "\x7b\x7d" := by
  constructor
  · exact getTypeExample_fallbacks.2.1 false false "zzz" (by decide) (by decide)
      (by decide) (by decide)
  · exact getTypeExample_fallbacks.2.2.1 false true "Zebra" (by decide) (by decide)
      (by decide) (by decide) (by decide) (by decide)

/-! ## The `Vector<Inner>` branch of `get_type_example` (claim C6) -/

theorem stripFlags_of_not {l : List Char} (h : isPrefixL "flags.".data l = false) :
    stripFlags l = l := by
  unfold stripFlags
  rw [h]
  rfl

theorem takeWhile_all {p : Char → Bool} {l : List Char} (h : ∀ c ∈ l, p c) :
    l.takeWhile p = l := by
  induction l with
  | nil => rfl
  | cons c cs ih =>
    rw [List.takeWhile_cons, if_pos (h c (List.mem_cons_self c cs))]
    rw [ih (fun d hd => h d (List.mem_cons_of_mem c hd))]

theorem string_data_ne {a b : String} {x y : Char} {xs ys : List Char}
    (hax : a.data = x :: xs) (hby : b.data = y :: ys) (hxy : x ≠ y) : a ≠ b := by
  intro h
  subst h
  rw [hax] at hby
  injection hby with h1 _
  exact hxy h1

theorem optTruthy_ne_empty {o : Option String} {s : String}
    (h : optTruthy o = some s) : s ≠ "" := by
  cases o with
  | none => cases h
  | some v =>
    simp only [optTruthy] at h
    by_cases hv : v = ""
    · rw [if_pos hv] at h
      cases h
    · rw [if_neg hv] at h
      injection h with h
      subst h
      exact hv

theorem ifex_some {ex : Bool} {x : Option String} {s : String}
    (h : (if ex = true then optTruthy x else none) = some s) : optTruthy x = some s := by
  cases ex with
  | true => simpa using h
  | false => simp at h

theorem tg_ne_empty (x y : String) : ("&tg." ++ x) ++ y ≠ "" := by
  intro h
  have h2 : (("&tg." : String).data ++ x.data) ++ y.data = [] := by
    have := congrArg String.data h
    rwa [String.data_append, String.data_append] at this
  have h3 : ("&tg." : String).data = [] :=
    (List.append_eq_nil.mp ((List.append_eq_nil.mp h2).1)).1
  exact absurd h3 (by decide)

/-- The vector regex on the well-formed wrap `Vector<Inner>`: the capture
is exactly `Inner` (when `Inner` is non-empty and newline-free). -/
theorem vecInner_wrap (inner : String) (hne : inner ≠ "")
    (hnl : ∀ c ∈ inner.data, (c.toNat == 10) = false) :
    vecInner ("Vector<" ++ inner ++ ">").data = some inner.data := by
  have hdata : ("Vector<" ++ inner ++ ">").data =
      "Vector<".data ++ (inner.data ++ ['>']) := by
    simp [String.data_append]
  have hdrop : (("Vector<" ++ inner ++ ">").data).drop 7 = inner.data ++ ['>'] := by
    rw [hdata]
    have h7 : ("Vector<".data).length = 7 := by decide
    rw [← h7, List.drop_left]
  have hpre : (inner.data ++ ['>']).takeWhile (fun c => !(c.toNat == 10)) =
      inner.data ++ ['>'] := by
    apply takeWhile_all
    intro c hc
    rcases List.mem_append.mp hc with hc | hc
    · simp [hnl c hc]
    · simp only [List.mem_singleton] at hc
      subst hc
      decide
  have hrev : (inner.data ++ ['>']).reverse = '>' :: inner.data.reverse := by
    simp
  have hidx : List.findIdx? (fun c => c == '>') ('>' :: inner.data.reverse) = some 0 := by
    simp [List.findIdx?_cons]
  have hlen : (inner.data ++ ['>']).length = inner.data.length + 1 := by simp
  have hnonempty : inner.data ≠ [] := by
    intro h
    exact hne (by cases inner; simp_all)
  have hpos : 1 ≤ inner.data.length := by
    cases hd : inner.data with
    | nil => exact absurd hd hnonempty
    | cons c cs => simp [hd]
  have htake : (inner.data ++ ['>']).take inner.data.length = inner.data :=
    List.take_left inner.data ['>']
  unfold vecInner
  rw [if_pos (by rw [isPrefixL_iff]; exact ⟨inner.data ++ ['>'], hdata⟩)]
  dsimp only
  rw [hdrop, hpre, hrev, hidx]
  dsimp only
  rw [hlen]
  have harith : inner.data.length + 1 - 1 - 0 = inner.data.length := by omega
  rw [harith, if_pos hpos, htake]

/-- The one-element sequence literal of the source, regrouped so that the
element stands alone between the braces. -/
theorem seq_regroup (a b : String) :
    "[]tg." ++ a ++ "\x7b&tg." ++ b ++ "\x7b\x7d\x7d" =
      "[]tg." ++ a ++ "\x7b" ++ ("&tg." ++ b ++ "\x7b\x7d") ++ "\x7d" := by
  apply String.ext
  simp [String.data_append]

/-- C6 counterexample: for `Inner = string`, the claim predicts a sequence
literal, but a substring test fires first and the code returns the string
example `"..."`, which is not a sequence literal at all. -/
theorem vectorExample_string_counterexample :
    getTypeExample "Vector<string>" false false = "\"...\"" ∧
    getTypeExample "Vector<string>" false false ≠ "[]string\x7b\x7d" ∧
    isPrefixL "[]".data (getTypeExample "Vector<string>" false false).data = false := by
  refine ⟨by decide, by decide, by decide⟩

/-- C6 amended: for every non-empty, newline-free `Inner` such that
`Vector<Inner>` does not contain the substring `string`, the example for
`Vector<Inner>` is the empty sequence literal `[]Inner{}` when `Inner` is
one of the primitive element types `int, long, bytes, int32, int64`
(`string` being unreachable), and otherwise a sequence literal
`[]tg.<mangled Inner>{elem}` holding exactly one non-empty element. -/
theorem vectorExample_spec (inner : String) (ic ex : Bool)
    (hne : inner ≠ "")
    (hnl : ∀ c ∈ inner.data, (c.toNat == 10) = false)
    (hstr : subL "string".data (("Vector<" ++ inner ++ ">").data) = false) :
    (inner ∈ vecPrims →
      getTypeExample ("Vector<" ++ inner ++ ">") ic ex = "[]" ++ inner ++ "\x7b\x7d") ∧
    (inner ∉ vecPrims → ∃ elem : String, elem ≠ "" ∧
      getTypeExample ("Vector<" ++ inner ++ ">") ic ex =
        "[]tg." ++ toGoName inner ++ "\x7b" ++ elem ++ "\x7d") := by
  have hdata : ("Vector<" ++ inner ++ ">").data =
      'V' :: ("ector<".data ++ (inner.data ++ ['>'])) := by
    simp [String.data_append]
  have hpfx : isPrefixL "flags.".data ("Vector<" ++ inner ++ ">").data = false := by
    rw [hdata]
    rfl
  have hclean : stripFlags ("Vector<" ++ inner ++ ">").data =
      ("Vector<" ++ inner ++ ">").data := stripFlags_of_not hpfx
  have hfullS : (⟨("Vector<" ++ inner ++ ">").data⟩ : String) = "Vector<" ++ inner ++ ">" :=
    rfl
  have hvec : vecInner ("Vector<" ++ inner ++ ">").data = some inner.data :=
    vecInner_wrap inner hne hnl
  have hV : ∀ (b : String) (y : Char) (ys : List Char), b.data = y :: ys → y ≠ 'V' →
      ¬ ("Vector<" ++ inner ++ ">" : String) = b := by
    intro b y ys hb hy
    exact string_data_ne hdata hb (fun h => hy h.symm)
  have hinnerS : (⟨inner.data⟩ : String) = inner := rfl
  constructor
  · intro hmem
    unfold getTypeExample
    dsimp only
    rw [hclean, hfullS, hstr]
    rw [if_neg (by simp), if_neg (not_or.mpr ⟨hV "int" 'i' _ rfl (by decide),
      hV "int32" 'i' _ rfl (by decide)⟩),
      if_neg (not_or.mpr ⟨hV "long" 'l' _ rfl (by decide), hV "int64" 'i' _ rfl (by decide)⟩),
      if_neg (hV "double" 'd' _ rfl (by decide)), if_neg (hV "bytes" 'b' _ rfl (by decide)),
      if_neg (not_or.mpr ⟨hV "Bool" 'B' _ rfl (by decide), hV "true" 't' _ rfl (by decide)⟩)]
    rw [hvec]
    dsimp only
    rw [hinnerS, if_pos hmem]
  · intro hmem
    unfold getTypeExample
    dsimp only
    rw [hclean, hfullS, hstr]
    rw [if_neg (by simp), if_neg (not_or.mpr ⟨hV "int" 'i' _ rfl (by decide),
      hV "int32" 'i' _ rfl (by decide)⟩),
      if_neg (not_or.mpr ⟨hV "long" 'l' _ rfl (by decide), hV "int64" 'i' _ rfl (by decide)⟩),
      if_neg (hV "double" 'd' _ rfl (by decide)), if_neg (hV "bytes" 'b' _ rfl (by decide)),
      if_neg (not_or.mpr ⟨hV "Bool" 'B' _ rfl (by decide), hV "true" 't' _ rfl (by decide)⟩)]
    rw [hvec]
    dsimp only
    rw [hinnerS, if_neg hmem]
    cases hlook : alook inner INTERFACE_EXAMPLES with
    | some impl =>
      dsimp only
      cases hE : (if ex = true then optTruthy (getExpandedStruct impl) else none) with
      | some expanded =>
        dsimp only
        exact ⟨expanded, optTruthy_ne_empty (ifex_some hE), rfl⟩
      | none =>
        dsimp only
        exact ⟨"&tg." ++ toGoName impl ++ "\x7b\x7d",
          tg_ne_empty _ _,
          seq_regroup (toGoName inner) (toGoName impl)⟩
    | none =>
      dsimp only
      exact ⟨"&tg." ++ toGoName inner ++ "\x7b\x7d",
        tg_ne_empty _ _,
        seq_regroup (toGoName inner) (toGoName inner)⟩

/-- C6 amended witness: the theorem applied at `Inner = int` (primitive,
empty sequence literal) and at `Inner = InputPeer` (one-element literal). -/
theorem vectorExample_spec_witness :
    getTypeExample "Vector<int>" false false = "[]int\x7b\x7d" ∧
    ∃ elem : String, elem ≠ "" ∧
      getTypeExample "Vector<InputPeer>" false false =
        "[]tg." ++ toGoName "InputPeer" ++ "\x7b" ++ elem ++ "\x7d" := by
  constructor
  · exact (vectorExample_spec "int" false false (by decide) (by decide) (by decide)).1
      (by decide)
  · exact (vectorExample_spec "InputPeer" false false (by decide) (by decide)
      (by decide)).2 (by decide)

/-! ## Shape of the synthesized examples (claims C2 and C7) -/

/-- Does the line end in a comma?  All rendered field lines do; none of
the elision markers, header or blank lines do. -/
def endsComma (s : String) : Bool :=
  s.data.getLast? == some ','

theorem endsComma_append (x : String) : endsComma (x ++ ",") = true := by
  unfold endsComma
  rw [String.data_append]
  have : (x.data ++ ("," : String).data).getLast? = some ',' := by
    rw [show ("," : String).data = [','] from rfl]
    exact List.getLast?_concat _
  rw [this]
  rfl

theorem endsComma_renderReq (p : String × String) : endsComma (renderReqLine p) = true :=
  endsComma_append _

theorem endsComma_renderOpt (p : String × String) : endsComma (renderOptLine p) = true :=
  endsComma_append _

theorem not_mem_map_renderReq {m : String} (hm : endsComma m = false)
    (l : List (String × String)) : m ∉ l.map renderReqLine := by
  intro h
  obtain ⟨p, _, hp⟩ := List.mem_map.mp h
  rw [← hp, endsComma_renderReq] at hm
  cases hm

theorem not_mem_map_renderOpt {m : String} (hm : endsComma m = false)
    (l : List (String × String)) : m ∉ l.map renderOptLine := by
  intro h
  obtain ⟨p, _, hp⟩ := List.mem_map.mp h
  rw [← hp, endsComma_renderOpt] at hm
  cases hm

theorem filter_endsComma_map_renderReq (l : List (String × String)) :
    (l.map renderReqLine).filter endsComma = l.map renderReqLine := by
  apply List.filter_eq_self.mpr
  intro a ha
  obtain ⟨p, _, hp⟩ := List.mem_map.mp ha
  rw [← hp]
  exact endsComma_renderReq p

theorem filter_endsComma_map_renderOpt (l : List (String × String)) :
    (l.map renderOptLine).filter endsComma = l.map renderOptLine := by
  apply List.filter_eq_self.mpr
  intro a ha
  obtain ⟨p, _, hp⟩ := List.mem_map.mp ha
  rw [← hp]
  exact endsComma_renderOpt p

theorem filter_endsComma_take_renderReq (n : Nat) (l : List (String × String)) :
    ((l.map renderReqLine).take n).filter endsComma = (l.map renderReqLine).take n := by
  apply List.filter_eq_self.mpr
  intro a ha
  obtain ⟨p, _, hp⟩ := List.mem_map.mp (List.take_subset n _ ha)
  rw [← hp]
  exact endsComma_renderReq p

theorem filter_endsComma_take_renderOpt (n : Nat) (l : List (String × String)) :
    ((l.map renderOptLine).take n).filter endsComma = (l.map renderOptLine).take n := by
  apply List.filter_eq_self.mpr
  intro a ha
  obtain ⟨p, _, hp⟩ := List.mem_map.mp (List.take_subset n _ ha)
  rw [← hp]
  exact endsComma_renderOpt p

theorem filter_len_method (it : Entity) :
    ((methodParamsLines it).filter endsComma).length =
      min (requiredParams it).length 8 + min (optionalParams it).length 4 := by
  unfold methodParamsLines
  rw [List.filter_append, List.filter_append]
  have hA : (((requiredParams it).take 8).map renderReqLine).filter endsComma
      = ((requiredParams it).take 8).map renderReqLine := by
    apply List.filter_eq_self.mpr
    intro a ha
    obtain ⟨p, _, hp⟩ := List.mem_map.mp ha
    rw [← hp]
    exact endsComma_renderReq p
  have hB : (List.filter endsComma
      (if 8 < (requiredParams it).length then ["    // ..."] else [])) = [] := by
    by_cases h8 : 8 < (requiredParams it).length
    · rw [if_pos h8]
      decide
    · rw [if_neg h8]
      rfl
  rw [hA, hB]
  by_cases hop : optionalParams it = []
  · rw [if_neg (fun h => h hop)]
    simp [List.length_take, hop]
    omega
  · rw [if_pos hop, List.filter_append, List.filter_append]
    have hC : List.filter endsComma ["", "    // Optional fields:"] = [] := by decide
    have hD : (((optionalParams it).take 4).map renderOptLine).filter endsComma
        = ((optionalParams it).take 4).map renderOptLine := by
      apply List.filter_eq_self.mpr
      intro a ha
      obtain ⟨p, _, hp⟩ := List.mem_map.mp ha
      rw [← hp]
      exact endsComma_renderOpt p
    have hE : List.filter endsComma
        (if 4 < (optionalParams it).length then ["    // ..."] else []) = [] := by
      by_cases h4 : 4 < (optionalParams it).length
      · rw [if_pos h4]
        decide
      · rw [if_neg h4]
        rfl
    rw [hC, hD, hE]
    simp [List.length_take]
    omega

theorem filter_len_ctor (it : Entity) :
    ((ctorParamsLines it).filter endsComma).length =
      min (requiredParams it).length 6 + min (optionalParams it).length 4 := by
  unfold ctorParamsLines
  rw [List.filter_append, List.filter_append]
  have hA : (((requiredParams it).take 6).map renderReqLine).filter endsComma
      = ((requiredParams it).take 6).map renderReqLine := by
    apply List.filter_eq_self.mpr
    intro a ha
    obtain ⟨p, _, hp⟩ := List.mem_map.mp ha
    rw [← hp]
    exact endsComma_renderReq p
  have hB : (List.filter endsComma
      (if 6 < (requiredParams it).length then ["    // ... more required fields"] else []))
      = [] := by
    by_cases h6 : 6 < (requiredParams it).length
    · rw [if_pos h6]
      decide
    · rw [if_neg h6]
      rfl
  rw [hA, hB]
  by_cases hop : optionalParams it = []
  · rw [if_neg (fun h => h hop)]
    simp [List.length_take, hop]
    omega
  · rw [if_pos hop, List.filter_append, List.filter_append]
    have hC : List.filter endsComma ["", "    // Optional fields:"] = [] := by decide
    have hD : (((optionalParams it).take 4).map renderOptLine).filter endsComma
        = ((optionalParams it).take 4).map renderOptLine := by
      apply List.filter_eq_self.mpr
      intro a ha
      obtain ⟨p, _, hp⟩ := List.mem_map.mp ha
      rw [← hp]
      exact endsComma_renderOpt p
    have hE : List.filter endsComma
        (if 4 < (optionalParams it).length then ["    // ... more optional fields"] else [])
        = [] := by
      by_cases h4 : 4 < (optionalParams it).length
      · rw [if_pos h4]
        decide
      · rw [if_neg h4]
        rfl
    rw [hC, hD, hE]
    simp [List.length_take]
    omega

/-- The positional and the Params-struct templates always disagree (they
diverge right after the shared `// <go name>` prefix). -/
theorem methodPositional_ne_struct (it : Entity) (tm : List (String × List Entity)) :
    methodPositionalExample it tm ≠ methodStructExample it tm := by
  intro h
  unfold methodPositionalExample methodStructExample at h
  have hd := congrArg String.data h
  simp only [String.data_append, List.append_assoc] at hd
  have hd2 := List.append_cancel_left hd
  have hd3 := List.append_cancel_left hd2
  have ht := congrArg (List.take 4) hd3
  rw [List.take_append_of_le_length (by decide),
    List.take_append_of_le_length (by decide)] at ht
  exact absurd ht (by decide)

theorem usePositional_iff (it : Entity) :
    usePositional it = true ↔
      ((requiredParams it).length ≤ 5 ∧ (optionalParams it).length = 0) := by
  simp [usePositional]

/-- C2: a method example is the positional form iff it has at most 5
required parameters and no optional ones, and the struct form otherwise;
a constructor example is always the struct-literal form; the struct forms
render at most 8 (methods) / 6 (constructors) required lines and at most
4 optional lines, with the respective elision markers present exactly
when more fields exist. -/
theorem exampleForm_spec :
    (∀ (it : Entity) (tm : List (String × List Entity)),
      (genExample it Kind.method tm = methodPositionalExample it tm ↔
        ((requiredParams it).length ≤ 5 ∧ (optionalParams it).length = 0)) ∧
      (genExample it Kind.method tm = methodStructExample it tm ↔
        ¬((requiredParams it).length ≤ 5 ∧ (optionalParams it).length = 0)) ∧
      genExample it Kind.constructor tm = ctorExample it tm) ∧
    (∀ it : Entity,
      ("    // ..." ∈ methodParamsLines it ↔
        (8 < (requiredParams it).length ∨ 4 < (optionalParams it).length)) ∧
      ("    // ... more required fields" ∈ ctorParamsLines it ↔
        6 < (requiredParams it).length) ∧
      ("    // ... more optional fields" ∈ ctorParamsLines it ↔
        4 < (optionalParams it).length) ∧
      ((methodParamsLines it).filter endsComma).length =
        min (requiredParams it).length 8 + min (optionalParams it).length 4 ∧
      ((ctorParamsLines it).filter endsComma).length =
        min (requiredParams it).length 6 + min (optionalParams it).length 4) := by
  constructor
  · intro it tm
    refine ⟨?_, ?_, rfl⟩
    · constructor
      · intro h
        by_cases hc : (requiredParams it).length ≤ 5 ∧ (optionalParams it).length = 0
        · exact hc
        · exfalso
          have hup : usePositional it = false := by
            rcases Bool.eq_false_or_eq_true (usePositional it) with hb | hb
            · exact absurd ((usePositional_iff it).mp hb) hc
            · exact hb
          have : genExample it Kind.method tm = methodStructExample it tm := by
            simp [genExample, hup]
          rw [this] at h
          exact methodPositional_ne_struct it tm h.symm
      · intro hc
        have hup : usePositional it = true := (usePositional_iff it).mpr hc
        simp [genExample, hup]
    · constructor
      · intro h
        intro hc
        have hup : usePositional it = true := (usePositional_iff it).mpr hc
        have : genExample it Kind.method tm = methodPositionalExample it tm := by
          simp [genExample, hup]
        rw [this] at h
        exact methodPositional_ne_struct it tm h
      · intro hc
        have hup : usePositional it = false := by
          rcases Bool.eq_false_or_eq_true (usePositional it) with hb | hb
          · exact absurd ((usePositional_iff it).mp hb) hc
          · exact hb
        simp [genExample, hup]
  · intro it
    have hAreq : ("    // ..." : String) ∉
        ((requiredParams it).take 8).map renderReqLine :=
      not_mem_map_renderReq (by decide) _
    have hAreq6 : ("    // ... more required fields" : String) ∉
        ((requiredParams it).take 6).map renderReqLine :=
      not_mem_map_renderReq (by decide) _
    have hAopt6 : ("    // ... more optional fields" : String) ∉
        ((requiredParams it).take 6).map renderReqLine :=
      not_mem_map_renderReq (by decide) _
    have hOopt : ("    // ..." : String) ∉
        ((optionalParams it).take 4).map renderOptLine :=
      not_mem_map_renderOpt (by decide) _
    have hOreq6 : ("    // ... more required fields" : String) ∉
        ((optionalParams it).take 4).map renderOptLine :=
      not_mem_map_renderOpt (by decide) _
    have hOopt6 : ("    // ... more optional fields" : String) ∉
        ((optionalParams it).take 4).map renderOptLine :=
      not_mem_map_renderOpt (by decide) _
    refine ⟨?_, ?_, ?_, ?_, ?_⟩
    · unfold methodParamsLines
      by_cases h8 : 8 < (requiredParams it).length <;>
        by_cases hop : optionalParams it = [] <;>
          by_cases h4 : 4 < (optionalParams it).length <;>
            simp_all [List.mem_append, List.length_eq_zero]
    · unfold ctorParamsLines
      by_cases h6 : 6 < (requiredParams it).length <;>
        by_cases hop : optionalParams it = [] <;>
          by_cases h4 : 4 < (optionalParams it).length <;>
            simp_all [List.mem_append, List.length_eq_zero]
    · unfold ctorParamsLines
      by_cases h6 : 6 < (requiredParams it).length <;>
        by_cases hop : optionalParams it = [] <;>
          by_cases h4 : 4 < (optionalParams it).length <;>
            simp_all [List.mem_append, List.length_eq_zero]
    · exact filter_len_method it
    · exact filter_len_ctor it

/-! ## Field labels surfaced by the synthesized examples (claim C7) -/

/-- The go-mangled field labels that actually appear as `Name:` labels in
the rendered example of an entity: the `p[0]` components of the rendered
slices (none in the positional method form, which lists only values). -/
def surfacedLabels (it : Entity) (cat : Kind) : List String :=
  match cat with
  | Kind.method =>
    if usePositional it then []
    else ((requiredParams it).take 8).map Prod.fst
      ++ ((optionalParams it).take 4).map Prod.fst
  | Kind.constructor =>
    ((requiredParams it).take 6).map Prod.fst
      ++ ((optionalParams it).take 4).map Prod.fst

theorem mem_requiredParams_fst {it : Entity} {n : Nat} {l : String}
    (h : l ∈ ((requiredParams it).take n).map Prod.fst) :
    ∃ f, f ∈ methodReq it ∧ l = toGoName f.name := by
  obtain ⟨p, hp, hl⟩ := List.mem_map.mp h
  have hp' : p ∈ requiredParams it := List.take_subset n _ hp
  unfold requiredParams at hp'
  obtain ⟨f, hf, hfp⟩ := List.mem_map.mp hp'
  exact ⟨f, hf, by rw [← hl, ← hfp]⟩

theorem mem_optionalParams_fst {it : Entity} {n : Nat} {l : String}
    (h : l ∈ ((optionalParams it).take n).map Prod.fst) :
    ∃ f, f ∈ methodOpt it ∧ l = toGoName f.name := by
  obtain ⟨p, hp, hl⟩ := List.mem_map.mp h
  have hp' : p ∈ optionalParams it := List.take_subset n _ hp
  unfold optionalParams at hp'
  obtain ⟨f, hf, hfp⟩ := List.mem_map.mp hp'
  exact ⟨f, hf, by rw [← hl, ← hfp]⟩

theorem fst_mem_of_take {it : Entity} {n : Nat} {f : TLField}
    (h : f ∈ (methodReq it).take n) :
    toGoName f.name ∈ ((requiredParams it).take n).map Prod.fst := by
  unfold requiredParams
  rw [← List.map_take]
  exact List.mem_map.mpr ⟨(toGoName f.name, getTypeExample f.type false true),
    List.mem_map.mpr ⟨f, h, rfl⟩, rfl⟩

theorem fst_mem_of_take_opt {it : Entity} {n : Nat} {f : TLField}
    (h : f ∈ (methodOpt it).take n) :
    toGoName f.name ∈ ((optionalParams it).take n).map Prod.fst := by
  unfold optionalParams
  rw [← List.map_take]
  exact List.mem_map.mpr ⟨(toGoName f.name, getTypeExample f.type false true),
    List.mem_map.mpr ⟨f, h, rfl⟩, rfl⟩

/-- C7: every field label surfaced in a synthesized example is the
mangled name of a field of the entity's displayable field list (no
fabricated labels), and every displayable field is surfaced unless the
method uses the positional form or the field falls beyond the stated
truncation limits (no silently dropped fields). -/
theorem surfacedLabels_roundTrip :
    (∀ (it : Entity) (cat : Kind) (l : String), l ∈ surfacedLabels it cat →
      ∃ f, f ∈ displayFields it ∧ l = toGoName f.name) ∧
    (∀ (it : Entity) (f : TLField), f ∈ displayFields it →
      (toGoName f.name ∈ surfacedLabels it Kind.method ∨
        usePositional it = true ∨
        f ∈ (methodReq it).drop 8 ∨ f ∈ (methodOpt it).drop 4)) ∧
    (∀ (it : Entity) (f : TLField), f ∈ displayFields it →
      (toGoName f.name ∈ surfacedLabels it Kind.constructor ∨
        f ∈ (methodReq it).drop 6 ∨ f ∈ (methodOpt it).drop 4)) := by
  refine ⟨?_, ?_, ?_⟩
  · intro it cat l hl
    cases cat with
    | method =>
      unfold surfacedLabels at hl
      by_cases hup : usePositional it = true
      · rw [if_pos hup] at hl
        cases hl
      · rw [if_neg hup] at hl
        rcases List.mem_append.mp hl with h | h
        · obtain ⟨f, hf, hfe⟩ := mem_requiredParams_fst h
          exact ⟨f, List.mem_of_mem_filter hf, hfe⟩
        · obtain ⟨f, hf, hfe⟩ := mem_optionalParams_fst h
          exact ⟨f, List.mem_of_mem_filter hf, hfe⟩
    | constructor =>
      unfold surfacedLabels at hl
      rcases List.mem_append.mp hl with h | h
      · obtain ⟨f, hf, hfe⟩ := mem_requiredParams_fst h
        exact ⟨f, List.mem_of_mem_filter hf, hfe⟩
      · obtain ⟨f, hf, hfe⟩ := mem_optionalParams_fst h
        exact ⟨f, List.mem_of_mem_filter hf, hfe⟩
  · intro it f hf
    by_cases hup : usePositional it = true
    · exact Or.inr (Or.inl hup)
    · by_cases hOpt : isOptionalType f.type = true
      · have hmem : f ∈ methodOpt it := List.mem_filter.mpr ⟨hf, hOpt⟩
        rw [← List.take_append_drop 4 (methodOpt it)] at hmem
        rcases List.mem_append.mp hmem with h | h
        · refine Or.inl ?_
          unfold surfacedLabels
          rw [if_neg hup]
          exact List.mem_append_right _ (fst_mem_of_take_opt h)
        · exact Or.inr (Or.inr (Or.inr h))
      · have hmem : f ∈ methodReq it :=
          List.mem_filter.mpr ⟨hf, by simp [hOpt]⟩
        rw [← List.take_append_drop 8 (methodReq it)] at hmem
        rcases List.mem_append.mp hmem with h | h
        · refine Or.inl ?_
          unfold surfacedLabels
          rw [if_neg hup]
          exact List.mem_append_left _ (fst_mem_of_take h)
        · exact Or.inr (Or.inr (Or.inl h))
  · intro it f hf
    by_cases hOpt : isOptionalType f.type = true
    · have hmem : f ∈ methodOpt it := List.mem_filter.mpr ⟨hf, hOpt⟩
      rw [← List.take_append_drop 4 (methodOpt it)] at hmem
      rcases List.mem_append.mp hmem with h | h
      · refine Or.inl ?_
        unfold surfacedLabels
        exact List.mem_append_right _ (fst_mem_of_take_opt h)
      · exact Or.inr (Or.inr h)
    · have hmem : f ∈ methodReq it :=
        List.mem_filter.mpr ⟨hf, by simp [hOpt]⟩
      rw [← List.take_append_drop 6 (methodReq it)] at hmem
      rcases List.mem_append.mp hmem with h | h
      · refine Or.inl ?_
        unfold surfacedLabels
        exact List.mem_append_left _ (fst_mem_of_take h)
      · exact Or.inr (Or.inl h)

/-- C7 witness: the theorem applied to a one-field constructor — the
surfaced label `UserId` corresponds to its displayable field `user_id`. -/
theorem surfacedLabels_roundTrip_witness :
    ∃ f, f ∈ displayFields ⟨"m", [⟨"user_id", "long"⟩], some "X"⟩ ∧
      "UserId" = toGoName f.name :=
  surfacedLabels_roundTrip.1 ⟨"m", [⟨"user_id", "long"⟩], some "X"⟩
    Kind.constructor "UserId" (by decide)

/-! ## Idempotence of the mangler on canonical inputs (claim C9) -/

theorem lower_not_upper {c : Char} (h : isLowerCh c = true) : isUpperCh c = false := by
  obtain ⟨h1, h2⟩ := isLowerCh_toNat h
  simp only [isUpperCh, Bool.and_eq_false_iff, decide_eq_false_iff_not]
  omega

theorem upper_not_lower {c : Char} (h : isUpperCh c = true) : isLowerCh c = false := by
  obtain ⟨h1, h2⟩ := isUpperCh_toNat h
  simp only [isLowerCh, Bool.and_eq_false_iff, decide_eq_false_iff_not]
  omega

theorem map_id_of {α : Type} (f : α → α) (l : List α) (h : ∀ a ∈ l, f a = a) :
    l.map f = l := by
  induction l with
  | nil => rfl
  | cons x xs ih =>
    rw [List.map_cons, h x (List.mem_cons_self x xs),
      ih (fun a ha => h a (List.mem_cons_of_mem x ha))]

/-- A canonical mangled word: one uppercase letter followed by a
non-empty run of lowercase letters. -/
def Canon (w : List Char) : Prop :=
  ∃ c t, w = c :: t ∧ isUpperCh c = true ∧ t ≠ [] ∧ ∀ d ∈ t, isLowerCh d = true

theorem wordMatchAt_all_lower {l : List Char} (hne : l ≠ [])
    (hl : ∀ c ∈ l, isLowerCh c = true) : wordMatchAt l = some (l, []) := by
  cases l with
  | nil => exact absurd rfl hne
  | cons c cs =>
    have hc : isLowerCh c = true := hl c (List.mem_cons_self c cs)
    have hcu : isUpperCh c = false := lower_not_upper hc
    have h1 : matchAlt1 (c :: cs) = some (c :: cs, []) := by
      simp only [matchAlt1, hcu, Bool.false_eq_true, if_false, hc, if_true]
      rw [takeRun_all isLowerCh (c :: cs) hl]
    unfold wordMatchAt
    rw [h1]

theorem findWords_all_lower {l : List Char} (hne : l ≠ [])
    (hl : ∀ c ∈ l, isLowerCh c = true) : findWords l = [l] := by
  cases l with
  | nil => exact absurd rfl hne
  | cons c cs =>
    rw [findWords_cons, wordMatchAt_all_lower (by simp) hl]
    rfl

theorem canon_flatten_head (ws : List (List Char)) (h : ∀ w ∈ ws, Canon w) :
    ws.flatten = [] ∨ ∃ d ds, ws.flatten = d :: ds ∧ isUpperCh d = true := by
  cases ws with
  | nil => exact Or.inl rfl
  | cons w ws =>
    obtain ⟨c, t, rfl, hcu, _, _⟩ := h w (List.mem_cons_self w ws)
    right
    exact ⟨c, t ++ ws.flatten, by simp, hcu⟩

theorem wordMatchAt_canon {c : Char} {t rest : List Char}
    (hcu : isUpperCh c = true) (htne : t ≠ []) (ht : ∀ d ∈ t, isLowerCh d = true)
    (hrest : rest = [] ∨ ∃ d ds, rest = d :: ds ∧ isUpperCh d = true) :
    wordMatchAt ((c :: t) ++ rest) = some (c :: t, rest) := by
  have hrun : takeRun isLowerCh (t ++ rest) = (t, rest) := by
    apply takeRun_append isLowerCh t rest ht
    intro d hd
    rcases hrest with rfl | ⟨e, es, rfl, heu⟩
    · cases hd
    · simp only [List.head?_cons, Option.some.injEq] at hd
      subst hd
      exact upper_not_lower heu
  cases t with
  | nil => exact absurd rfl htne
  | cons d ds =>
    have hd : isLowerCh d = true := ht d (List.mem_cons_self d ds)
    unfold wordMatchAt matchAlt1
    simp only [List.cons_append, hcu, if_true]
    rw [List.cons_append] at hrun
    simp only [hd, if_true]
    rw [hrun]

theorem findWords_canon_flatten : ∀ (ws : List (List Char)),
    (∀ w ∈ ws, Canon w) → findWords ws.flatten = ws := by
  intro ws
  induction ws with
  | nil => intro _; rfl
  | cons w ws ih =>
    intro h
    obtain ⟨c, t, rfl, hcu, htne, ht⟩ := h w (List.mem_cons_self w ws)
    have hrest := canon_flatten_head ws (fun w hw => h w (List.mem_cons_of_mem _ hw))
    have hih := ih (fun w hw => h w (List.mem_cons_of_mem _ hw))
    have hmatch : wordMatchAt (c :: (t ++ ws.flatten)) = some (c :: t, ws.flatten) :=
      wordMatchAt_canon hcu htne ht hrest
    have hflat : ((c :: t) :: ws).flatten = c :: (t ++ ws.flatten) := by simp
    rw [hflat, findWords_cons, hmatch]
    show (c :: t) :: findWords ws.flatten = (c :: t) :: ws
    rw [hih]

theorem pyCapitalize_canon {w : List Char} (h : Canon w) : pyCapitalize w = w := by
  obtain ⟨c, t, rfl, hcu, _, ht⟩ := h
  simp only [pyCapitalize]
  rw [upCh_of_not_lower (upper_not_lower hcu)]
  rw [map_id_of downCh t (fun d hd => downCh_of_not_upper (lower_not_upper (ht d hd)))]

theorem canon_chars_letter {ws : List (List Char)} (h : ∀ w ∈ ws, Canon w) :
    ∀ c ∈ ws.flatten, isUpperCh c = true ∨ isLowerCh c = true := by
  intro c hc
  obtain ⟨w, hw, hcw⟩ := List.mem_flatten.mp hc
  obtain ⟨x, t, rfl, hxu, _, ht⟩ := h w hw
  rcases List.mem_cons.mp hcw with rfl | hct
  · exact Or.inl hxu
  · exact Or.inr (ht c hct)

theorem splitUnd_no_und {l : List Char} (h : ∀ c ∈ l, c.toNat ≠ 95) :
    splitUnd l = [l] := by
  induction l with
  | nil => rfl
  | cons c cs ih =>
    have hc : (c.toNat == 95) = false := by
      simp [h c (List.mem_cons_self c cs)]
    simp only [splitUnd, hc, Bool.false_eq_true, if_false]
    rw [ih (fun d hd => h d (List.mem_cons_of_mem c hd))]

/-- Mangling a flattening of canonical words is the identity. -/
theorem toGoNameL_canon_fix {ws : List (List Char)} (h : ∀ w ∈ ws, Canon w) :
    toGoNameL ws.flatten = ws.flatten := by
  have hletters := canon_chars_letter h
  have hrd : replaceDots ws.flatten = ws.flatten := by
    apply map_id_of
    intro c hc
    have : (c.toNat == 46) = false := by
      rcases hletters c hc with hu | hl
      · obtain ⟨h1, h2⟩ := isUpperCh_toNat hu
        simp
        omega
      · obtain ⟨h1, h2⟩ := isLowerCh_toNat hl
        simp
        omega
    rw [this]
    rfl
  have hsu : splitUnd ws.flatten = [ws.flatten] := by
    apply splitUnd_no_und
    intro c hc
    rcases hletters c hc with hu | hl
    · obtain ⟨h1, h2⟩ := isUpperCh_toNat hu
      omega
    · obtain ⟨h1, h2⟩ := isLowerCh_toNat hl
      omega
  have hfw : findWords ws.flatten = ws := findWords_canon_flatten ws h
  unfold toGoNameL
  rw [hrd, hsu]
  have hmap : (List.map goNamePart [ws.flatten]).flatten = goNamePart ws.flatten := by
    simp
  rw [hmap]
  simp only [goNamePart]
  rw [hfw]
  rw [map_id_of pyCapitalize ws (fun w hw => pyCapitalize_canon (h w hw))]
  cases ws with
  | nil => rfl
  | cons w ws' => simp

theorem goNamePart_lower_seg {s : List Char} (hne : s ≠ [])
    (hl : ∀ c ∈ s, isLowerCh c = true) : goNamePart s = pyCapitalize s := by
  simp only [goNamePart]
  rw [findWords_all_lower hne hl]
  simp

/-- On a lowercase segment of length ≥ 2, capitalization yields a
canonical word. -/
theorem pyCapitalize_lower_canon {c : Char} {t : List Char} (htne : t ≠ [])
    (hl : ∀ d ∈ c :: t, isLowerCh d = true) : Canon (pyCapitalize (c :: t)) := by
  have hc : isLowerCh c = true := hl c (List.mem_cons_self c t)
  have ht : ∀ d ∈ t, isLowerCh d = true := fun d hd => hl d (List.mem_cons_of_mem c hd)
  have hmap : t.map downCh = t :=
    map_id_of downCh t (fun d hd => downCh_of_not_upper (lower_not_upper (ht d hd)))
  refine ⟨upCh c, t, ?_, upCh_upper_of_lower hc, htne, ht⟩
  simp only [pyCapitalize]
  rw [hmap]

theorem segs_map_canonical : ∀ segs : List (List Char),
    (∀ s ∈ segs, (∀ c ∈ s, isLowerCh c = true) ∧ s.length ≠ 1) →
    ∃ ws : List (List Char), (∀ w ∈ ws, Canon w) ∧
      (segs.map goNamePart).flatten = ws.flatten := by
  intro segs
  induction segs with
  | nil => intro _; exact ⟨[], by simp, rfl⟩
  | cons s segs ih =>
    intro h
    obtain ⟨hl, hlen⟩ := h s (List.mem_cons_self s segs)
    obtain ⟨ws', hws', heq'⟩ := ih (fun s hs => h s (List.mem_cons_of_mem _ hs))
    cases s with
    | nil =>
      refine ⟨ws', hws', ?_⟩
      simp only [List.map_cons, List.flatten_cons, ← heq']
      rfl
    | cons c t =>
      have htne : t ≠ [] := by
        intro ht
        subst ht
        exact hlen rfl
      refine ⟨pyCapitalize (c :: t) :: ws', ?_, ?_⟩
      · intro w hw
        rcases List.mem_cons.mp hw with rfl | hw
        · exact pyCapitalize_lower_canon htne hl
        · exact hws' w hw
      · simp only [List.map_cons, List.flatten_cons, ← heq']
        rw [goNamePart_lower_seg (by simp) hl]

theorem replaceDots_lower_or_und {x : List Char}
    (hchars : ∀ c ∈ x, isLowerCh c = true ∨ c = '.' ∨ c = '_') :
    ∀ c ∈ replaceDots x, isLowerCh c = true ∨ c.toNat = 95 := by
  intro c hc
  simp only [replaceDots, List.mem_map] at hc
  obtain ⟨c', hc', rfl⟩ := hc
  by_cases h46 : (c'.toNat == 46) = true
  · rw [if_pos h46]
    right
    decide
  · rw [if_neg h46]
    rcases hchars c' hc' with hl | hd | hu
    · exact Or.inl hl
    · subst hd
      simp at h46
    · subst hu
      right
      decide

theorem toGoNameL_canonical (x : List Char)
    (hchars : ∀ c ∈ x, isLowerCh c = true ∨ c = '.' ∨ c = '_')
    (hseg : ∀ s ∈ splitUnd (replaceDots x), s.length ≠ 1) :
    ∃ ws : List (List Char), (∀ w ∈ ws, Canon w) ∧ toGoNameL x = ws.flatten := by
  have hrep := replaceDots_lower_or_und hchars
  have hsegs : ∀ s ∈ splitUnd (replaceDots x),
      (∀ c ∈ s, isLowerCh c = true) ∧ s.length ≠ 1 := by
    intro s hs
    refine ⟨?_, hseg s hs⟩
    intro c hc
    obtain ⟨hmem, hund⟩ := splitUnd_mem _ s hs c hc
    rcases hrep c hmem with hl | hu
    · exact hl
    · exact absurd hu hund
  obtain ⟨ws, hws, heq⟩ := segs_map_canonical (splitUnd (replaceDots x)) hsegs
  exact ⟨ws, hws, heq⟩

/-- C9 counterexample: `a_b` consists only of letters, digits, dots and
underscores, yet mangling is not idempotent on it:
`to_go_name("a_b") = "AB"` while `to_go_name("AB") = "Ab"`. -/
theorem mangle_not_idempotent_counterexample :
    (∀ c ∈ ("a_b" : String).data,
      isLetterCh c = true ∨ isDigitCh c = true ∨ c = '.' ∨ c = '_') ∧
    toGoName (toGoName "a_b") ≠ toGoName "a_b" := by
  constructor
  · decide
  · decide

/-- C9 amended: `to_go_name` is idempotent on word-like inputs made of
lowercase letters, dots and underscores in which every separator-delimited
segment has length ≠ 1 (single-letter segments produce adjacent capitals
that re-mangle differently, as the counterexample shows). -/
theorem mangle_idempotent_on_canonical (x : String)
    (hchars : ∀ c ∈ x.data, isLowerCh c = true ∨ c = '.' ∨ c = '_')
    (hseg : ∀ s ∈ splitUnd (replaceDots x.data), s.length ≠ 1) :
    toGoName (toGoName x) = toGoName x := by
  obtain ⟨ws, hws, heq⟩ := toGoNameL_canonical x.data hchars hseg
  show (⟨toGoNameL (⟨toGoNameL x.data⟩ : String).data⟩ : String) = ⟨toGoNameL x.data⟩
  rw [show ((⟨toGoNameL x.data⟩ : String).data) = toGoNameL x.data from rfl]
  rw [heq, toGoNameL_canon_fix hws]

/-- C9 amended witness: the theorem applied at `ab_cd.ef`. -/
theorem mangle_idempotent_on_canonical_witness :
    (∀ c ∈ ("ab_cd.ef" : String).data, isLowerCh c = true ∨ c = '.' ∨ c = '_') ∧
    toGoName (toGoName "ab_cd.ef") = toGoName "ab_cd.ef" :=
  ⟨by decide, mangle_idempotent_on_canonical "ab_cd.ef" (by decide) (by decide)⟩

/-! ## Exact characterization of declaration-parse failure (claim C4) -/

theorem char_eq_of_toNat {c d : Char} (h : c.toNat = d.toNat) : c = d := by
  apply Char.ext
  unfold Char.toNat at h
  exact UInt32.ext h

theorem dropWhile_all_append {p : Char → Bool} {a : List Char} (b : List Char)
    (ha : ∀ c ∈ a, p c = true) : (a ++ b).dropWhile p = b.dropWhile p := by
  induction a with
  | nil => rfl
  | cons c cs ih =>
    rw [List.cons_append, List.dropWhile_cons,
      if_pos (ha c (List.mem_cons_self c cs))]
    exact ih (fun d hd => ha d (List.mem_cons_of_mem c hd))

theorem dropWhile_cons_of_neg {p : Char → Bool} {c : Char} (l : List Char)
    (hc : p c = false) : (c :: l).dropWhile p = c :: l := by
  rw [List.dropWhile_cons, hc]
  rfl

theorem takeRun_append_all {p : Char → Bool} {a : List Char} (b : List Char)
    (ha : ∀ c ∈ a, p c = true) :
    takeRun p (a ++ b) = (a ++ (takeRun p b).1, (takeRun p b).2) := by
  induction a with
  | nil => rfl
  | cons c cs ih =>
    rw [List.cons_append]
    simp only [takeRun, ha c (List.mem_cons_self c cs), if_true]
    rw [ih (fun d hd => ha d (List.mem_cons_of_mem c hd))]
    rfl

theorem nameStart_not_ws {c : Char} (h : isNameStartCh c = true) : isWsCh c = false := by
  simp only [isNameStartCh, isLetterCh, isLowerCh, isUpperCh, Bool.or_eq_true,
    Bool.and_eq_true, decide_eq_true_eq, beq_iff_eq] at h
  simp only [isWsCh, Bool.or_eq_false_iff, beq_eq_false_iff_ne, ne_eq]
  omega

theorem hex_not_ws {c : Char} (h : isHexCh c = true) : isWsCh c = false := by
  simp only [isHexCh, isDigitCh, Bool.or_eq_true, Bool.and_eq_true,
    decide_eq_true_eq] at h
  simp only [isWsCh, Bool.or_eq_false_iff, beq_eq_false_iff_ne, ne_eq]
  omega

theorem eq_not_ws : isWsCh '=' = false := by decide

theorem eq_not_hex : isHexCh '=' = false := by decide

/-- `\s*NAME...`: after optional whitespace the remainder starts with a
name-start character (the `\s*([a-zA-Z_]...)` tail of the regex). -/
def BOk (q : List Char) : Prop :=
  ∃ w3 c r, q = w3 ++ c :: r ∧ (∀ d ∈ w3, isWsCh d = true) ∧ isNameStartCh c = true

/-- `(.*?)\s*=\s*NAME...`: a newline-free middle, optional whitespace, an
equals sign and a name tail. -/
def MidOk (u : List Char) : Prop :=
  ∃ m w2 q, u = m ++ w2 ++ '=' :: q ∧ (∀ d ∈ m, d.toNat ≠ 10) ∧
    (∀ d ∈ w2, isWsCh d = true) ∧ BOk q

/-- `\s*(.*?)\s*=\s*NAME...`: the whole tail after the hex id. -/
def TailOk (t : List Char) : Prop :=
  ∃ w1 u, t = w1 ++ u ∧ (∀ d ∈ w1, isWsCh d = true) ∧ MidOk u

/-- The declarative reading of the declaration regex
`^NAME#HEX\s*(.*?)\s*=\s*NAME` (NAME allowing dots anywhere). -/
def DeclMatchable (l : List Char) : Prop :=
  ∃ (c : Char) (n h t : List Char),
    l = c :: (n ++ '#' :: (h ++ t)) ∧ isNameStartCh c = true ∧
    (∀ d ∈ n, isDotNameCh d = true) ∧ h ≠ [] ∧ (∀ d ∈ h, isHexCh d = true) ∧ TailOk t

theorem eqTail_sound {u : List Char} (h : (eqTail u).isSome = true) :
    MidOk u := by
  unfold eqTail at h
  cases hdrop : u.dropWhile isWsCh with
  | nil => rw [hdrop] at h; cases h
  | cons c v =>
    rw [hdrop] at h
    dsimp only at h
    by_cases hc : (c.toNat == 61) = true
    · rw [if_pos hc] at h
      have hceq : c = '=' := char_eq_of_toNat (by simpa using hc)
      subst hceq
      cases hdrop2 : v.dropWhile isWsCh with
      | nil => rw [hdrop2] at h; cases h
      | cons d r =>
        rw [hdrop2] at h
        dsimp only at h
        by_cases hd : isNameStartCh d = true
        · refine ⟨[], u.takeWhile isWsCh, v, ?_, by simp, ?_, ?_⟩
          · rw [List.nil_append, ← hdrop, List.takeWhile_append_dropWhile]
          · intro x hx
            exact List.mem_takeWhile_imp hx
          · refine ⟨v.takeWhile isWsCh, d, r, ?_, ?_, hd⟩
            · rw [← hdrop2, List.takeWhile_append_dropWhile]
            · intro x hx
              exact List.mem_takeWhile_imp hx
        · rw [if_neg hd] at h
          cases h
    · rw [if_neg hc] at h
      cases h

theorem eqTail_complete {w2 q : List Char} (hw2 : ∀ d ∈ w2, isWsCh d = true)
    (hq : BOk q) : (eqTail (w2 ++ '=' :: q)).isSome = true := by
  obtain ⟨w3, c, r, rfl, hw3, hc⟩ := hq
  unfold eqTail
  rw [dropWhile_all_append _ hw2, dropWhile_cons_of_neg _ eq_not_ws]
  dsimp only
  rw [if_pos (by decide)]
  rw [dropWhile_all_append _ hw3, dropWhile_cons_of_neg _ (nameStart_not_ws hc)]
  dsimp only
  rw [if_pos hc]
  rfl

theorem scanMid_complete : ∀ (m acc w2 q : List Char),
    (∀ d ∈ m, d.toNat ≠ 10) → (∀ d ∈ w2, isWsCh d = true) → BOk q →
    (scanMid acc (m ++ w2 ++ '=' :: q)).isSome = true := by
  intro m
  induction m with
  | nil =>
    intro acc w2 q _ hw2 hq
    have he := eqTail_complete hw2 hq
    rw [List.nil_append]
    cases hu : w2 ++ '=' :: q with
    | nil =>
      exfalso
      cases w2 <;> simp at hu
    | cons c rest =>
      obtain ⟨rt, hrt⟩ := Option.isSome_iff_exists.mp he
      rw [hu] at hrt
      simp only [scanMid, hrt]
      rfl
  | cons d m' ih =>
    intro acc w2 q hm hw2 hq
    have hd10 : d.toNat ≠ 10 := hm d (List.mem_cons_self d m')
    show (scanMid acc (d :: (m' ++ w2 ++ '=' :: q))).isSome = true
    simp only [scanMid]
    cases he : eqTail (d :: (m' ++ w2 ++ '=' :: q)) with
    | some rt => rfl
    | none =>
      have hd10' : (d.toNat == 10) = false := by simpa using hd10
      simp only [hd10', Bool.false_eq_true, if_false]
      exact ih (d :: acc) w2 q (fun x hx => hm x (List.mem_cons_of_mem d hx)) hw2 hq

theorem scanMid_sound : ∀ (u acc : List Char),
    (scanMid acc u).isSome = true → MidOk u := by
  intro u
  induction u with
  | nil =>
    intro acc h
    simp [scanMid, eqTail] at h
  | cons c rest ih =>
    intro acc h
    simp only [scanMid] at h
    cases he : eqTail (c :: rest) with
    | some rt =>
      exact eqTail_sound (by rw [he]; rfl)
    | none =>
      rw [he] at h
      dsimp only at h
      by_cases hc : (c.toNat == 10) = true
      · rw [if_pos hc] at h
        cases h
      · rw [if_neg hc] at h
        obtain ⟨m, w2, q, hrest, hm, hw2, hq⟩ := ih (c :: acc) h
        refine ⟨c :: m, w2, q, ?_, ?_, hw2, hq⟩
        · rw [hrest]
          rfl
        · intro x hx
          rcases List.mem_cons.mp hx with rfl | hx
          · simpa using hc
          · exact hm x hx

theorem MidOk_dropWhile : ∀ (m w2 q : List Char),
    (∀ d ∈ m, d.toNat ≠ 10) → (∀ d ∈ w2, isWsCh d = true) → BOk q →
    MidOk ((m ++ w2 ++ '=' :: q).dropWhile isWsCh) := by
  intro m
  induction m with
  | nil =>
    intro w2 q _ hw2 hq
    rw [List.nil_append, dropWhile_all_append _ hw2, dropWhile_cons_of_neg _ eq_not_ws]
    exact ⟨[], [], q, rfl, by simp, by simp, hq⟩
  | cons d m' ih =>
    intro w2 q hm hw2 hq
    show MidOk ((d :: (m' ++ w2 ++ '=' :: q)).dropWhile isWsCh)
    by_cases hd : isWsCh d = true
    · rw [List.dropWhile_cons, if_pos hd]
      exact ih w2 q (fun x hx => hm x (List.mem_cons_of_mem d hx)) hw2 hq
    · rw [dropWhile_cons_of_neg _ (by simpa using hd)]
      exact ⟨d :: m', w2, q, rfl, hm, hw2, hq⟩

theorem TailOk_iff_MidOk_drop (t : List Char) :
    TailOk t ↔ MidOk (t.dropWhile isWsCh) := by
  constructor
  · rintro ⟨w1, u, rfl, hw1, hmid⟩
    obtain ⟨m, w2, q, rfl, hm, hw2, hq⟩ := hmid
    rw [dropWhile_all_append _ hw1]
    exact MidOk_dropWhile m w2 q hm hw2 hq
  · intro h
    exact ⟨t.takeWhile isWsCh, t.dropWhile isWsCh,
      (List.takeWhile_append_dropWhile isWsCh t).symm,
      fun d hd => List.mem_takeWhile_imp hd, h⟩

theorem TailOk_cons_hex {d : Char} {t : List Char} (hd : isHexCh d = true)
    (h : TailOk (d :: t)) : TailOk t := by
  obtain ⟨w1, u, heq, hw1, hmid⟩ := h
  cases w1 with
  | cons e w1' =>
    rw [List.cons_append] at heq
    injection heq with h1 _
    subst h1
    have := hw1 d (List.mem_cons_self d w1')
    rw [hex_not_ws hd] at this
    cases this
  | nil =>
    rw [List.nil_append] at heq
    obtain ⟨m, w2, q, hu, hm, hw2, hq⟩ := hmid
    subst heq
    cases m with
    | nil =>
      rw [List.nil_append] at hu
      cases w2 with
      | nil =>
        rw [List.nil_append] at hu
        injection hu with h1 _
        subst h1
        rw [eq_not_hex] at hd
        cases hd
      | cons e w2' =>
        rw [List.cons_append] at hu
        injection hu with h1 _
        subst h1
        have := hw2 d (List.mem_cons_self d w2')
        rw [hex_not_ws hd] at this
        cases this
    | cons e m' =>
      rw [show ((e :: m') ++ w2 ++ '=' :: q) = e :: (m' ++ w2 ++ '=' :: q) from rfl] at hu
      injection hu with h1 h2
      subst h1
      refine ⟨[], t, rfl, by simp, ⟨m', w2, q, h2, ?_, hw2, hq⟩⟩
      intro x hx
      exact hm x (List.mem_cons_of_mem d hx)

theorem TailOk_hexrun : ∀ (e t : List Char), (∀ d ∈ e, isHexCh d = true) →
    TailOk (e ++ t) → TailOk t := by
  intro e
  induction e with
  | nil => intro t _ h; exact h
  | cons d e' ih =>
    intro t he h
    exact ih t (fun x hx => he x (List.mem_cons_of_mem d hx))
      (TailOk_cons_hex (he d (List.mem_cons_self d e')) h)

theorem isEmpty_append_left {h : List Char} (x : List Char) (hne : h ≠ []) :
    (h ++ x).isEmpty = false := by
  cases h with
  | nil => exact absurd rfl hne
  | cons c cs => rfl

theorem declMatch_isSome_iff (l : List Char) :
    (declMatch l).isSome = true ↔ DeclMatchable l := by
  constructor
  · intro h
    unfold declMatch at h
    cases l with
    | nil => cases h
    | cons c cs =>
      dsimp only at h
      by_cases hc : isNameStartCh c = true
      · rw [if_pos hc] at h
        cases hnr : (takeRun isDotNameCh cs).2 with
        | nil => rw [hnr] at h; cases h
        | cons hh hs =>
          rw [hnr] at h
          dsimp only at h
          by_cases h35 : (hh.toNat == 35) = true
          · rw [if_pos h35] at h
            have hhh : hh = '#' := char_eq_of_toNat (by simpa using h35)
            subst hhh
            by_cases hhx : (takeRun isHexCh hs).1.isEmpty = true
            · rw [if_pos hhx] at h
              cases h
            · rw [if_neg hhx] at h
              cases hscan : scanMid [] ((takeRun isHexCh hs).2.dropWhile isWsCh) with
              | none => rw [hscan] at h; cases h
              | some x =>
                obtain ⟨mid, rt⟩ := x
                refine ⟨c, (takeRun isDotNameCh cs).1, (takeRun isHexCh hs).1,
                  (takeRun isHexCh hs).2, ?_, hc, takeRun_sat _ _, ?_, takeRun_sat _ _, ?_⟩
                · rw [takeRun_append_eq isHexCh hs, ← hnr, takeRun_append_eq]
                · intro hempty
                  rw [hempty] at hhx
                  exact hhx rfl
                · rw [TailOk_iff_MidOk_drop]
                  exact scanMid_sound _ [] (by rw [hscan]; rfl)
          · rw [if_neg h35] at h
            cases h
      · rw [if_neg hc] at h
        cases h
  · rintro ⟨c, n, h, t, rfl, hc, hn, hne, hhex, htail⟩
    unfold declMatch
    dsimp only
    rw [if_pos hc]
    have hnr : takeRun isDotNameCh (n ++ '#' :: (h ++ t)) = (n, '#' :: (h ++ t)) := by
      apply takeRun_append isDotNameCh n _ hn
      intro d hd
      simp only [List.head?_cons, Option.some.injEq] at hd
      subst hd
      decide
    rw [hnr]
    dsimp only
    rw [if_pos (by decide)]
    have hhx : takeRun isHexCh (h ++ t) =
        (h ++ (takeRun isHexCh t).1, (takeRun isHexCh t).2) :=
      takeRun_append_all t hhex
    rw [hhx]
    dsimp only
    rw [isEmpty_append_left _ hne]
    simp only [Bool.false_eq_true, if_false]
    have htail2 : TailOk (takeRun isHexCh t).2 := by
      apply TailOk_hexrun (takeRun isHexCh t).1 _ (takeRun_sat _ _)
      rw [takeRun_append_eq]
      exact htail
    have hmid : MidOk ((takeRun isHexCh t).2.dropWhile isWsCh) :=
      (TailOk_iff_MidOk_drop _).mp htail2
    obtain ⟨m, w2, q, hdec, hm, hw2, hq⟩ := hmid
    have hscan : (scanMid [] ((takeRun isHexCh t).2.dropWhile isWsCh)).isSome = true := by
      rw [hdec]
      exact scanMid_complete m [] w2 q hm hw2 hq
    obtain ⟨x, hx⟩ := Option.isSome_iff_exists.mp hscan
    rw [hx]
    rfl

/-- Modelled from the claim's grammar: does the line begin with
`NAME '#' HEX`, where `NAME` has at most one namespace dot
(`[a-zA-Z_][a-zA-Z0-9_]*(\.[a-zA-Z_][a-zA-Z0-9_]*)?`)? -/
def hashHexAt : List Char → Bool
  | c :: r => (c.toNat == 35) && !(takeRun isHexCh r).1.isEmpty
  | [] => false

def claimNameHexPrefix (s : String) : Bool :=
  match s.data with
  | c :: cs =>
    if isNameStartCh c then
      match (takeRun isWordCh cs).2 with
      | '.' :: r =>
        (match r with
         | d :: r2 =>
           if isNameStartCh d then hashHexAt (takeRun isWordCh r2).2 else false
         | [] => false)
      | rest => hashHexAt rest
    else false
  | [] => false

/-- C4 counterexample: the line `foo#ab` begins with `NAME '#' HEX`
exactly as the claim demands, yet `parse_tl_definition` returns the
failure triple, because its regex additionally requires an `=` followed
by a result-type name. -/
theorem parse_requires_eq_counterexample :
    claimNameHexPrefix "foo#ab" = true ∧ parseTL "foo#ab" = (none, [], none) := by
  constructor
  · decide
  · decide

/-- C4 amended: `parse_tl_definition` returns the failure triple
`(None, [], None)` exactly when the line does not match
`NAME '#' HEX (.*?) '=' NAME` — where `NAME` is `[a-zA-Z_]` followed by
word characters and any number of dots, the hex id is non-empty, the lazy
middle cannot cross a newline outside of whitespace runs, and an `=`
followed by optional whitespace and a name-start character must occur.
The embedding returns the explicit failure triple and cannot throw. -/
theorem parseTL_none_iff (l : String) :
    parseTL l = (none, [], none) ↔ ¬ DeclMatchable l.data := by
  rw [← declMatch_isSome_iff]
  unfold parseTL
  cases hd : declMatch l.data with
  | none => simp
  | some x =>
    obtain ⟨nm, mid, rt⟩ := x
    dsimp only
    constructor
    · intro h
      have := congrArg Prod.fst h
      simp at this
    · intro h
      exact absurd (show (Option.some (nm, mid, rt)).isSome = true from rfl) h

end TlRef

